import Mathlib

/-!
# Verification of the doxy core against its specification

Shallow embedding of the doxy static API-compatibility verifier
(authority store, finding identifiers, import resolver, suppression
engine) together with proofs about the embedded definitions.

The embedding follows the TypeScript sources:
  * `src/authority/store.ts` — `InMemoryAuthorityStore.getApiSpec`,
    `isAvailable`, `isFutureApi`, `findActiveSignature`,
    `findActiveDeprecation`;
  * `src/core/types/finding.ts` — `makeLongId`, `parseLongId`;
  * `src/core/resolver/index.ts` — `resolveImports`, `resolveCallee`,
    `extractPackageName`;
  * `src/core/suppression/index.ts` — `parseInlineSuppressions`,
    `isLineSuppressed`.

The external `semver` npm module is not part of the repository; it is
modelled abstractly as a `SemverModule` record of the three operations
the store uses (`coerce`, `satisfies`, `minVersion`).  Coerced versions
are `major.minor.patch` triples ordered lexicographically, which is the
order `semver.lt`/`gt`/`gte` implement on coerced (prerelease-free)
versions.
-/

namespace Doxy

/-- A coerced semantic version (`semver.coerce` drops any prerelease or
build metadata, leaving a `major.minor.patch` triple). -/
structure Semver where
  major : Nat
  minor : Nat
  patch : Nat
deriving DecidableEq, Repr

/-- `semver.lt` on coerced versions: lexicographic order on
`(major, minor, patch)`. -/
def Semver.ltb (a b : Semver) : Bool :=
  decide (a.major < b.major) ||
    (decide (a.major = b.major) &&
      (decide (a.minor < b.minor) ||
        (decide (a.minor = b.minor) && decide (a.patch < b.patch))))

/-- The interface of the external `semver` npm module, as used by the
authority store.  `coerce` turns a sloppy version string into a
comparable version (or fails); `satisfies` tests range membership;
`minVersionOf` is `semver.minVersion` on a range string. -/
structure SemverModule where
  coerce : String → Option Semver
  satisfies : Semver → String → Bool
  minVersionOf : String → Option Semver

/-! ## Authority data model (src/core/types/authority.ts) -/

/-- `ParameterSpec` — one parameter of an API signature. -/
structure ParameterSpec where
  name : String
  required : Bool
  description : Option String := none
deriving DecidableEq, Repr

/-- `SignatureSpec` — a versioned signature.  (`maxArity` is a JS
number that may be `Infinity`; arity bounds are not used by the claims
proved here, so `Nat` suffices.) -/
structure SignatureSpec where
  since : String
  /-- The TS field `until` (a Lean keyword). -/
  untilV : Option String := none
  minArity : Nat
  maxArity : Nat
  params : List ParameterSpec := []
deriving DecidableEq, Repr

/-- `ReplacementRef` — suggested replacement for a deprecated API. -/
structure ReplacementRef where
  package : String
  exportName : String
  migrationHint : String
deriving DecidableEq, Repr

/-- `DeprecationEntry` — one deprecation/removal event. -/
structure DeprecationEntry where
  since : String
  removedIn : Option String := none
  message : String
  replacement : Option ReplacementRef := none
deriving DecidableEq, Repr

/-- `ApiSpec` — the canonical description of one exported symbol.
(The TS field `export` is called `exportName` here: `export` is a Lean
keyword.) -/
structure ApiSpec where
  package : String
  exportName : String
  kind : String
  availableIn : String
  signatures : List SignatureSpec
  deprecations : List DeprecationEntry
  docsUrl : Option String := none
deriving DecidableEq, Repr

/-- `ResolvedApiSpec` — the result of querying an `ApiSpec` at a
concrete version. -/
structure ResolvedApiSpec where
  spec : ApiSpec
  activeSignature : Option SignatureSpec
  activeDeprecation : Option DeprecationEntry
  available : Bool
  isFuture : Bool
deriving DecidableEq, Repr

/-! ## JavaScript `Map` model

The store keeps its specs in a JS `Map`.  A JS `Map` preserves
insertion order; `set` on an existing key replaces the value in place.
We model it as an association list. -/

/-- `Map.get` — first entry with the key. -/
def mapGet {α : Type} (m : List (String × α)) (k : String) : Option α :=
  (m.find? fun p => decide (p.1 = k)).map (·.2)

/-- `Map.set` — replace in place if the key exists, else append. -/
def mapSet {α : Type} (m : List (String × α)) (k : String) (v : α) :
    List (String × α) :=
  if (m.find? fun p => decide (p.1 = k)).isSome then
    m.map fun p => if p.1 = k then (k, v) else p
  else m ++ [(k, v)]

/-! ## Authority store (src/authority/store.ts) -/

/-- `InMemoryAuthorityStore` — specs map keyed by `"package/export"`,
covered package set, content hash, data version. -/
structure InMemoryAuthorityStore where
  specs : List (String × ApiSpec)
  packages : List String
  hash : String
  version : String
deriving DecidableEq, Repr

/-- `isAvailable` — the API exists at the given installed version:
coerce the version, then test the `availableIn` range. -/
def isAvailable (M : SemverModule) (spec : ApiSpec) (version : String) : Bool :=
  match M.coerce version with
  | none => false
  | some coerced => M.satisfies coerced spec.availableIn

/-- `isFutureApi` — the API's minimum version is above the installed
version. -/
def isFutureApi (M : SemverModule) (spec : ApiSpec) (version : String) : Bool :=
  match M.coerce version with
  | none => false
  | some coerced =>
    match M.minVersionOf spec.availableIn with
    | none => false
    | some minVersion => Semver.ltb coerced minVersion

/-- The `until` guard of the signature loop: `sig.until` is set,
coerces, and the version has reached it (`gte(coerced, untilSemver)`),
so the signature is skipped. -/
def untilBlocks (M : SemverModule) (c : Semver) (sig : SignatureSpec) : Bool :=
  match sig.untilV with
  | some u =>
    match M.coerce u with
    | some untilSemver => !Semver.ltb c untilSemver
    | none => false
  | none => false

/-- The replacement guard of the signature loop: `!best ||
!semver.coerce(best.since) || semver.gt(sinceSemver, coerce(best.since))`. -/
def bestReplaced (M : SemverModule) (sinceSemver : Semver) :
    Option SignatureSpec → Bool
  | none => true
  | some b =>
    match M.coerce b.since with
    | none => true
    | some bs => Semver.ltb bs sinceSemver

/-- Loop body of `findActiveSignature`: walk the signature list keeping
the best (`most recent applicable`) signature seen so far. -/
def findActiveSigGo (M : SemverModule) (c : Semver) :
    List SignatureSpec → Option SignatureSpec → Option SignatureSpec
  | [], best => best
  | sig :: rest, best =>
    match M.coerce sig.since with
    | none => findActiveSigGo M c rest best
    | some sinceSemver =>
      if Semver.ltb c sinceSemver then findActiveSigGo M c rest best
      else if untilBlocks M c sig then findActiveSigGo M c rest best
      else if bestReplaced M sinceSemver best then
        findActiveSigGo M c rest (some sig)
      else findActiveSigGo M c rest best

/-- `findActiveSignature` — the signature active at the installed
version. -/
def findActiveSignature (M : SemverModule) (spec : ApiSpec)
    (version : String) : Option SignatureSpec :=
  match M.coerce version with
  | none => none
  | some coerced => findActiveSigGo M coerced spec.signatures none

/-- Loop body of `findActiveDeprecation`: return the first deprecation
whose `since` has been reached. -/
def findActiveDepGo (M : SemverModule) (c : Semver) :
    List DeprecationEntry → Option DeprecationEntry
  | [] => none
  | dep :: rest =>
    match M.coerce dep.since with
    | none => findActiveDepGo M c rest
    | some sinceSemver =>
      if Semver.ltb c sinceSemver then findActiveDepGo M c rest
      else some dep

/-- `findActiveDeprecation` — the deprecation entry returned for the
installed version. -/
def findActiveDeprecation (M : SemverModule) (spec : ApiSpec)
    (version : String) : Option DeprecationEntry :=
  match M.coerce version with
  | none => none
  | some coerced => findActiveDepGo M coerced spec.deprecations

/-- `InMemoryAuthorityStore.getApiSpec` — the version-parameterized
query.  The method body only reads `this.specs`. -/
def getApiSpec (M : SemverModule) (store : InMemoryAuthorityStore)
    (packageName exportName installedVersion : String) :
    Option ResolvedApiSpec :=
  let key := packageName ++ "/" ++ exportName
  match mapGet store.specs key with
  | none => none
  | some spec =>
    let available := isAvailable M spec installedVersion
    let isFuture := !available && isFutureApi M spec installedVersion
    some { spec := spec
           activeSignature := findActiveSignature M spec installedVersion
           activeDeprecation := findActiveDeprecation M spec installedVersion
           available := available
           isFuture := isFuture }

/-- State-passing view of the `getApiSpec` method call.  The TS method
body contains no assignment to `this` or to any reachable field, so
the receiver comes back unchanged. -/
def getApiSpecS (M : SemverModule) (store : InMemoryAuthorityStore)
    (packageName exportName installedVersion : String) :
    Option ResolvedApiSpec × InMemoryAuthorityStore :=
  (getApiSpec M store packageName exportName installedVersion, store)

/-! ## Concrete semver module and store instances used by witnesses -/

/-- A small concrete instance of the semver module interface, used to
instantiate the store theorems at concrete inputs.  Its `coerce` is a
finite table over the version strings the witnesses mention; every
string outside the table fails to coerce. -/
def wSemver : SemverModule where
  coerce s :=
    if s = "1.0.0" then some ⟨1, 0, 0⟩
    else if s = "2.0.0" then some ⟨2, 0, 0⟩
    else if s = "3.0.0" then some ⟨3, 0, 0⟩
    else none
  satisfies c _ := decide (1 ≤ c.major)
  minVersionOf _ := some ⟨1, 0, 0⟩

/-- A sample spec: deprecated at 1.0.0 and again at 2.0.0 (ordered
non-decreasing by `since`, as the data invariant requires). -/
def wDep1 : DeprecationEntry :=
  { since := "1.0.0", message := "first deprecation" }

/-- The later deprecation entry of the sample spec. -/
def wDep2 : DeprecationEntry :=
  { since := "2.0.0", message := "second deprecation" }

/-- Two signatures that share the same `since` but differ in arity. -/
def wSig1 : SignatureSpec :=
  { since := "1.0.0", minArity := 0, maxArity := 1 }

/-- The second, last-in-order signature with the same `since`. -/
def wSig2 : SignatureSpec :=
  { since := "1.0.0", minArity := 0, maxArity := 2 }

/-- Sample `ApiSpec` combining the entries above. -/
def wSpec : ApiSpec :=
  { package := "react"
    exportName := "createFactory"
    kind := "function"
    availableIn := ">=1.0.0"
    signatures := [wSig1, wSig2]
    deprecations := [wDep1, wDep2] }

/-- Sample store holding `wSpec` under its `"package/export"` key. -/
def wStore : InMemoryAuthorityStore :=
  { specs := [("react/createFactory", wSpec)]
    packages := ["react"]
    hash := "hash"
    version := "0.1.0" }

/-! ## Finding identifiers (src/core/types/finding.ts)

`makeLongId` renders `dxy:<package>/<export>:<file>:<line>:<col>`;
`parseLongId` parses it back with the JS regex
`/^dxy:([^/]+)\/([^:]+):(.+):(\d+):(\d+)$/`.  The embedding implements
the regex's deterministic behaviour: the first capture cannot cross a
`/`, so it is the prefix before the first `/`; the second cannot cross
a `:`, so it is the segment before the next `:`; the greedy `(.+)`
followed by the anchored `:(\d+):(\d+)$` makes the file the remainder
up to the last two `:`-separated digit runs; `.` does not match the JS
line terminators. -/

/-- Decimal digits of `n`, most significant first (`fuel`-structured
so it reduces definitionally; `fuel > n` suffices). -/
def decCharsAux : Nat → Nat → List Char
  | 0, _ => []
  | fuel + 1, n =>
    if n < 10 then [Nat.digitChar n]
    else decCharsAux fuel (n / 10) ++ [Nat.digitChar (n % 10)]

/-- Decimal digit list of a natural number. -/
def decChars (n : Nat) : List Char :=
  decCharsAux (n + 1) n

/-- Decimal rendering of a JS non-negative integer (template-literal
interpolation `${line}`). -/
def natToDec (n : Nat) : String :=
  ⟨decChars n⟩

/-- `makeLongId` — `dxy:<package>/<export>:<file>:<line>:<col>`. -/
def makeLongId (pkg exportName file : String) (line col : Nat) : String :=
  "dxy:" ++ pkg ++ "/" ++ exportName ++ ":" ++ file ++ ":" ++
    natToDec line ++ ":" ++ natToDec col

/-- The record `parseLongId` returns. -/
structure ParsedLongId where
  package : String
  exportName : String
  file : String
  line : Nat
  column : Nat
deriving DecidableEq, Repr

/-- Split a character list at the first occurrence of `ch` (the
occurrence is dropped); `none` when `ch` is absent. -/
def breakAtChar : List Char → Char → Option (List Char × List Char)
  | [], _ => none
  | c :: cs, ch =>
    if c = ch then some ([], cs)
    else (breakAtChar cs ch).map fun p => (c :: p.1, p.2)

/-- Numeric value of a decimal digit character. -/
def digitVal (c : Char) : Nat :=
  c.toNat - 48

/-- `parseInt(s, 10)` on a run of decimal digits. -/
def digitsToNat (ds : List Char) : Nat :=
  ds.foldl (fun n c => n * 10 + digitVal c) 0

/-- Characters the JS regex `.` does not match (line terminators). -/
def jsDotExcl (c : Char) : Bool :=
  c = '\n' || c = '\r' || c = '\u2028' || c = '\u2029'

/-- Expect a literal `:` at the head, returning the rest. -/
def expectColon : List Char → Option (List Char)
  | c :: rest => if c = ':' then some rest else none
  | [] => none

/-- Match `(.+):(\d+):(\d+)$` against the (reversed) tail of a long
ID: the trailing digit run is the column, the digit run before the
previous `:` is the line, everything before that `:` is the file,
which must be nonempty and free of JS line terminators. -/
def parseTailRev (r : List Char) : Option (List Char × Nat × Nat) :=
  if r.takeWhile (·.isDigit) = [] then none
  else
    (expectColon (r.dropWhile (·.isDigit))).bind fun r2 =>
      if r2.takeWhile (·.isDigit) = [] then none
      else
        (expectColon (r2.dropWhile (·.isDigit))).bind fun r4 =>
          if r4.reverse = [] then none
          else if (r4.reverse).any jsDotExcl then none
          else some (r4.reverse,
            digitsToNat (r2.takeWhile (·.isDigit)).reverse,
            digitsToNat (r.takeWhile (·.isDigit)).reverse)

/-- `(.+):(\d+):(\d+)$` on the tail of a long ID, parsed from the
right. -/
def parseTailChars (cs : List Char) : Option (List Char × Nat × Nat) :=
  parseTailRev cs.reverse

/-- `parseLongId` on the character list of the input: the `dxy:`
prefix, the package up to the first `/`, the export up to the next
`:`, then the file/line/column tail. -/
def parseLongIdChars : List Char → Option ParsedLongId
  | 'd' :: 'x' :: 'y' :: ':' :: rest =>
    (breakAtChar rest '/').bind fun ps =>
      if ps.1 = [] then none
      else
        (breakAtChar ps.2 ':').bind fun es =>
          if es.1 = [] then none
          else
            (parseTailChars es.2).map fun ft =>
              { package := ⟨ps.1⟩
                exportName := ⟨es.1⟩
                file := ⟨ft.1⟩
                line := ft.2.1
                column := ft.2.2 }
  | _ => none

/-- `parseLongId` — parse a long ID back into its components;
`none` when the format is invalid. -/
def parseLongId (longId : String) : Option ParsedLongId :=
  parseLongIdChars longId.data

/-! ## Suppression engine (src/core/suppression/index.ts) -/

/-- `InlineSuppression` — an inline suppression extracted from source
comments (`kind` is a violation kind or `"*"`). -/
structure InlineSuppression where
  kind : String
  reason : Option String := none
  startLine : Nat
  endLine : Nat
deriving DecidableEq, Repr

/-- `isLineSuppressed` — the first suppression whose closed range
contains the line and whose kind is `"*"` or the finding's kind. -/
def isLineSuppressed (line : Nat) (kind : String) :
    List InlineSuppression → Option InlineSuppression
  | [] => none
  | sup :: rest =>
    if line < sup.startLine ∨ sup.endLine < line then
      isLineSuppressed line kind rest
    else if sup.kind = "*" ∨ sup.kind = kind then some sup
    else isLineSuppressed line kind rest

/-- One suppression matches a finding: range contains the line and the
kind is `"*"` or equal. -/
def supMatches (line : Nat) (kind : String) (sup : InlineSuppression) : Bool :=
  (decide (sup.startLine ≤ line) && decide (line ≤ sup.endLine)) &&
    (decide (sup.kind = "*") || decide (sup.kind = kind))

/-! ## Import resolver: package-name extraction
(src/core/resolver/index.ts) -/

/-- `s.startsWith(c)` for a single-character prefix. -/
def headIs (s : String) (c : Char) : Bool :=
  match s.data with
  | [] => false
  | c0 :: _ => c0 = c

/-- JS `String.prototype.split(sep)` for a one-character separator, on
character lists: `"" → [""]`, separators at the ends produce empty
segments. -/
def splitChars (ch : Char) : List Char → List (List Char)
  | [] => [[]]
  | c :: rest =>
    if c = ch then [] :: splitChars ch rest
    else
      match splitChars ch rest with
      | [] => [[c]]
      | seg :: segs => (c :: seg) :: segs

/-- JS `split` on strings. -/
def jsSplit (s : String) (ch : Char) : List String :=
  (splitChars ch s.data).map fun cs => ⟨cs⟩

/-- `extractPackageName` — nil for relative imports; the first two
slash-delimited segments for scoped packages (`split("/")`); otherwise
the prefix before the first `/` (`indexOf`/`slice`), or the whole
string. -/
def extractPackageName (source : String) : Option String :=
  if headIs source '.' || headIs source '/' then none
  else if headIs source '@' then
    match jsSplit source '/' with
    | p0 :: p1 :: _ => some (p0 ++ "/" ++ p1)
    | _ => none
  else
    match breakAtChar source.data '/' with
    | none => some source
    | some (head, _) => some ⟨head⟩

/-! ## Normalized AST and symbol usages
(src/core/types/normalized-ast.ts, src/core/types/adapter.ts) -/

/-- `SourceLocation` — file/line/column of a syntax node. -/
structure SourceLocation where
  file : String
  line : Nat
  column : Nat
  endLine : Option Nat := none
  endColumn : Option Nat := none
deriving DecidableEq, Repr

/-- `ImportSpecifier` — one named import.  (The TS field `local` is
called `localName` here: `local` is a Lean keyword.) -/
structure ImportSpecifier where
  imported : String
  localName : String
  isTypeOnly : Bool
deriving DecidableEq, Repr

/-- `NormalizedImport` — one import declaration. -/
structure NormalizedImport where
  source : String
  specifiers : List ImportSpecifier
  hasDefault : Bool
  defaultLocal : Option String := none
  hasNamespace : Bool
  namespaceLocal : Option String := none
  isTypeOnly : Bool
  isRequire : Bool
  location : SourceLocation
deriving DecidableEq, Repr

/-- `NormalizedCallExpression` — one call, with dotted callee path. -/
structure NormalizedCallExpression where
  callee : String
  argCount : Nat
  argNames : List String
  location : SourceLocation
deriving DecidableEq, Repr

/-- `NormalizedJSXElement` — one JSX element use. -/
structure NormalizedJSXElement where
  tagName : String
  attributes : List String
  location : SourceLocation
deriving DecidableEq, Repr

/-- `NormalizedAST` — the per-file language-agnostic snapshot. -/
structure NormalizedAST where
  imports : List NormalizedImport
  callExpressions : List NormalizedCallExpression
  jsxElements : List NormalizedJSXElement
deriving DecidableEq, Repr

/-- The resolver's per-local-name `Binding` record. -/
structure Binding where
  package : String
  exportName : String
  importKind : String
  importLocation : SourceLocation
deriving DecidableEq, Repr

/-- `UsageSite` — one place a symbol is used. -/
structure UsageSite where
  location : SourceLocation
  argCount : Option Nat := none
  argNames : Option (List String) := none
deriving DecidableEq, Repr

/-- `SymbolUsage` — all sites of one `(package, export)` symbol. -/
structure SymbolUsage where
  package : String
  exportName : String
  importKind : String
  usageSites : List UsageSite
deriving DecidableEq, Repr

/-! ## Import resolver (src/core/resolver/index.ts) -/

/-- JS `Set.add` — insertion-ordered, no duplicates. -/
def setAdd (l : List String) (x : String) : List String :=
  if x ∈ l then l else l ++ [x]

/-- Step-1 state: the binding map, the namespace-like map, the
imported-package set, and the unresolved-import list. -/
structure ResolveState where
  bindings : List (String × Binding)
  namespacesAndDefaults : List (String × String)
  importedPackages : List String
  unresolvedImports : List String
deriving Repr

/-- Named-specifier loop of step 1: bind `local → (pkg, imported,
named)`, skipping type-only specifiers. -/
def processSpecifiers (pkg : String) (loc : SourceLocation)
    (specs : List ImportSpecifier) (bindings : List (String × Binding)) :
    List (String × Binding) :=
  specs.foldl
    (fun bs spec =>
      if spec.isTypeOnly then bs
      else mapSet bs spec.localName ⟨pkg, spec.imported, "named", loc⟩)
    bindings

/-- Step 1 for a single import: skip type-only imports and relative
sources; push untracked packages onto `unresolvedImports`; otherwise
record the package and add the named/default/namespace bindings.
(JS truthiness: `imp.defaultLocal`/`imp.namespaceLocal` count only
when present and nonempty.) -/
def processImport (tracked : Option (List String)) (st : ResolveState)
    (imp : NormalizedImport) : ResolveState :=
  if imp.isTypeOnly then st
  else
    match extractPackageName imp.source with
    | none => st
    | some pkg =>
      if (match tracked with
          | some tp => decide (pkg ∉ tp)
          | none => false) then
        { st with unresolvedImports := st.unresolvedImports ++ [imp.source] }
      else
        let ip := setAdd st.importedPackages pkg
        let bs1 := processSpecifiers pkg imp.location imp.specifiers st.bindings
        let bs2 :=
          if imp.hasDefault then
            match imp.defaultLocal with
            | some dl =>
              if dl ≠ "" then
                mapSet bs1 dl ⟨pkg, "default", "default", imp.location⟩
              else bs1
            | none => bs1
          else bs1
        let nsd1 :=
          if imp.hasDefault then
            match imp.defaultLocal with
            | some dl =>
              if dl ≠ "" then mapSet st.namespacesAndDefaults dl pkg
              else st.namespacesAndDefaults
            | none => st.namespacesAndDefaults
          else st.namespacesAndDefaults
        let bs3 :=
          if imp.hasNamespace then
            match imp.namespaceLocal with
            | some nl =>
              if nl ≠ "" then
                mapSet bs2 nl ⟨pkg, "*", "namespace", imp.location⟩
              else bs2
            | none => bs2
          else bs2
        let nsd2 :=
          if imp.hasNamespace then
            match imp.namespaceLocal with
            | some nl =>
              if nl ≠ "" then mapSet nsd1 nl pkg else nsd1
            | none => nsd1
          else nsd1
        { bindings := bs3
          namespacesAndDefaults := nsd2
          importedPackages := ip
          unresolvedImports := st.unresolvedImports }

/-- Step 1 over all imports of the file. -/
def buildState (ast : NormalizedAST) (tracked : Option (List String)) :
    ResolveState :=
  ast.imports.foldl (processImport tracked) ⟨[], [], [], []⟩

/-- Member-expression half of `resolveCallee`: split at the first `.`,
look the head up in the namespace-like map. -/
def resolveCalleeMember (callee : String)
    (bindings : List (String × Binding)) (nsd : List (String × String)) :
    Option (String × String × String) :=
  match breakAtChar callee.data '.' with
  | none => none
  | some (obj, prop) =>
    match mapGet nsd ⟨obj⟩ with
    | none => none
    | some pkg =>
      some (pkg, ⟨prop⟩,
        match mapGet bindings ⟨obj⟩ with
        | some b => if b.importKind = "namespace" then "namespace" else "default"
        | none => "default")

/-- `resolveCallee` — direct binding first (unless it is the
default/namespace binding), then member-expression resolution. -/
def resolveCallee (callee : String) (bindings : List (String × Binding))
    (nsd : List (String × String)) : Option (String × String × String) :=
  match mapGet bindings callee with
  | some b =>
    if b.exportName ≠ "default" ∧ b.exportName ≠ "*" then
      some (b.package, b.exportName, b.importKind)
    else resolveCalleeMember callee bindings nsd
  | none => resolveCalleeMember callee bindings nsd

/-- The usage site recorded for a call expression. -/
def mkSite (call : NormalizedCallExpression) : UsageSite :=
  { location := call.location
    argCount := some call.argCount
    argNames := if call.argNames.length > 0 then some call.argNames else none }

/-- Step 2 for one call: resolve the callee and append the site to the
usage keyed `"package/export"`. -/
def addCall (bindings : List (String × Binding))
    (nsd : List (String × String)) (m : List (String × SymbolUsage))
    (call : NormalizedCallExpression) : List (String × SymbolUsage) :=
  match resolveCallee call.callee bindings nsd with
  | none => m
  | some (pkg, exp, kind) =>
    match mapGet m (pkg ++ "/" ++ exp) with
    | none => mapSet m (pkg ++ "/" ++ exp) ⟨pkg, exp, kind, [mkSite call]⟩
    | some u =>
      mapSet m (pkg ++ "/" ++ exp)
        ⟨u.package, u.exportName, u.importKind,
          u.usageSites ++ [mkSite call]⟩

/-- Step 2 over all call expressions. -/
def callUsageMap (ast : NormalizedAST) (st : ResolveState) :
    List (String × SymbolUsage) :=
  ast.callExpressions.foldl (addCall st.bindings st.namespacesAndDefaults) []

/-- Step 3 for one binding: skip default/namespace bindings; when the
`(package, export)` key has no usage yet, add an import-only usage
whose sole site is the import location. -/
def addImportOnly (m : List (String × SymbolUsage))
    (entry : String × Binding) : List (String × SymbolUsage) :=
  if entry.2.exportName = "default" ∨ entry.2.exportName = "*" then m
  else
    if (mapGet m (entry.2.package ++ "/" ++ entry.2.exportName)).isSome then m
    else
      mapSet m (entry.2.package ++ "/" ++ entry.2.exportName)
        ⟨entry.2.package, entry.2.exportName, entry.2.importKind,
          [{ location := entry.2.importLocation }]⟩

/-- The result record of `resolveImports`. -/
structure ResolveResult where
  usages : List SymbolUsage
  importedPackages : List String
  unresolvedImports : List String
deriving Repr

/-- `resolveImports` — steps 1–3 and the final `values()` view. -/
def resolveImports (ast : NormalizedAST) (tracked : Option (List String)) :
    ResolveResult :=
  let st := buildState ast tracked
  { usages := (st.bindings.foldl addImportOnly (callUsageMap ast st)).map (·.2)
    importedPackages := st.importedPackages
    unresolvedImports := st.unresolvedImports }

/-- A binding entry that step 3 would consider for a key: named (not
the default/namespace binding) and keyed `"package/export" = key`. -/
def bindingQualifies (key : String) (entry : String × Binding) : Bool :=
  decide (¬ entry.2.exportName = "default") &&
    decide (¬ entry.2.exportName = "*") &&
    decide (entry.2.package ++ "/" ++ entry.2.exportName = key)

/-! ## Concrete resolver inputs used by witnesses -/

/-- Location of the sample import statement. -/
def wLoc : SourceLocation :=
  { file := "src/App.tsx", line := 1, column := 0 }

/-- Location of the sample call expression. -/
def wCallLoc : SourceLocation :=
  { file := "src/App.tsx", line := 5, column := 2 }

/-- `import { useState, useEffect } from "react"`. -/
def wImport : NormalizedImport :=
  { source := "react"
    specifiers := [⟨"useState", "useState", false⟩,
      ⟨"useEffect", "useEffect", false⟩]
    hasDefault := false
    hasNamespace := false
    isTypeOnly := false
    isRequire := false
    location := wLoc }

/-- `useState(0)` — a call site for one of the two imports. -/
def wCall : NormalizedCallExpression :=
  { callee := "useState", argCount := 1, argNames := [], location := wCallLoc }

/-- Sample AST: two named imports, one call. -/
def wAst : NormalizedAST :=
  { imports := [wImport], callExpressions := [wCall], jsxElements := [] }

/-- The binding step 1 creates for the uncalled `useEffect`. -/
def wBindingUseEffect : Binding :=
  { package := "react", exportName := "useEffect", importKind := "named",
    importLocation := wLoc }

/-! ## Inline-suppression parsing (src/core/suppression/index.ts)

The parser walks `source.split("\n")` keeping a stack of open block
suppressions.  Per line it checks, in order: `IGNORE_BLOCK_END`
(`/doxy-ignore-end/` — a substring test), `IGNORE_BLOCK_START`
(`/doxy-ignore-start\s+([\w*-]+)(?:\s*(?:--|—|:)\s*(.+))?/`, guarded
by `!IGNORE_CURRENT_LINE.test(line)` and a test of `IGNORE_NEXT_LINE`
on the line with the block-start match removed), `IGNORE_CURRENT_LINE`
(`/doxy-ignore-line\s+([\w*-]+)(?:\s*(?:--|—|:)\s*(.+?))?$/`) and
`IGNORE_NEXT_LINE` (same pattern with literal `doxy-ignore`).  The
matchers below implement the JS regex semantics: leftmost occurrence
of the literal, greedy quantifiers with backtracking, `$` as
end-of-string, `.` excluding the JS line terminators, `\s` as
whitespace (the common code points), `\w` as `[A-Za-z0-9_]`. -/

/-- JS `\s` (the whitespace code points the sources can contain). -/
def jsWS (c : Char) : Bool :=
  c = ' ' || c = '\t' || c = '\n' || c = '\r' || c = '\x0b' || c = '\x0c' ||
    c = '\u00a0' || c = '\u2028' || c = '\u2029' || c = '\ufeff'

/-- JS `\w` — `[A-Za-z0-9_]`. -/
def isWordChar (c : Char) : Bool :=
  c.isAlphanum || c = '_'

/-- The kind character class `[\w*-]`. -/
def isKindChar (c : Char) : Bool :=
  isWordChar c || c = '*' || c = '-'

/-- Does the list start with the given sequence? -/
def hasPrefixSeq : List Char → List Char → Bool
  | _, [] => true
  | [], _ :: _ => false
  | c :: cs, p :: ps => c = p && hasPrefixSeq cs ps

/-- Does the list contain the given sequence (substring test, as
`IGNORE_BLOCK_END.test`)? -/
def containsSeq (pat : List Char) : List Char → Bool
  | [] => hasPrefixSeq [] pat
  | c :: cs => hasPrefixSeq (c :: cs) pat || containsSeq pat cs

/-- The reason separator `(?:--|—|:)`; the three alternatives start
with distinct characters, so matching is deterministic. -/
def matchSep : List Char → Option (List Char)
  | '-' :: '-' :: rest => some rest
  | '—' :: rest => some rest
  | ':' :: rest => some rest
  | _ => none

/-- The last character not excluded by `.`, with the characters after
it (used when `\s*(.+)` backtracks inside an all-whitespace suffix). -/
def lastNonExclSplit : List Char → Option (Char × List Char)
  | [] => none
  | c :: cs =>
    match lastNonExclSplit cs with
    | some r => some r
    | none => if !jsDotExcl c then some (c, cs) else none

/-- `IGNORE_BLOCK_START` continuation after the literal: `\s+` then the
kind `([\w*-]+)` then the greedy optional reason
`(?:\s*(?:--|—|:)\s*(.+))?` (no anchor).  Returns the kind, the reason
capture, and the characters after the full match (for `.replace`). -/
def afterBlockStart (rest : List Char) :
    Option (List Char × Option (List Char) × List Char) :=
  if rest.takeWhile jsWS = [] then none
  else
    if (rest.dropWhile jsWS).takeWhile isKindChar = [] then none
    else
      let kind := (rest.dropWhile jsWS).takeWhile isKindChar
      let afterKind := (rest.dropWhile jsWS).dropWhile isKindChar
      match matchSep (afterKind.dropWhile jsWS) with
      | none => some (kind, none, afterKind)
      | some rest2 =>
        if (rest2.dropWhile jsWS).isEmpty = false then
          some (kind,
            some ((rest2.dropWhile jsWS).takeWhile fun c => !jsDotExcl c),
            (rest2.dropWhile jsWS).dropWhile fun c => !jsDotExcl c)
        else
          match lastNonExclSplit rest2 with
          | some (c, after) => some (kind, some [c], after)
          | none => some (kind, none, afterKind)

/-- The `doxy-ignore-start` literal. -/
def blockStartLit : List Char := "doxy-ignore-start".data

/-- The `doxy-ignore-end` literal. -/
def blockEndLit : List Char := "doxy-ignore-end".data

/-- The `doxy-ignore-line` literal. -/
def currentLit : List Char := "doxy-ignore-line".data

/-- The `doxy-ignore` literal. -/
def nextLit : List Char := "doxy-ignore".data

/-- Leftmost match of `IGNORE_BLOCK_START` in the line: scan for the
literal, try the continuation, advance one character on failure.
Returns the kind, the reason, and the line with the match removed. -/
def findBlockStart : List Char → Option (List Char × Option (List Char) × List Char)
  | [] => none
  | c :: cs =>
    if hasPrefixSeq (c :: cs) blockStartLit then
      match afterBlockStart ((c :: cs).drop blockStartLit.length) with
      | some r => some r
      | none => (findBlockStart cs).map fun r => (r.1, r.2.1, c :: r.2.2)
    else (findBlockStart cs).map fun r => (r.1, r.2.1, c :: r.2.2)

/-- One attempt of the `$`-anchored tail `(?:\s*(?:--|—|:)\s*(.+?))?$`
for a fixed kind capture: either the separator, spaces and a reason
running to the end of the line, or the end of the line directly. -/
def anchoredTry (kind rest : List Char) :
    Option (List Char × Option (List Char)) :=
  match matchSep (rest.dropWhile jsWS) with
  | some rest2 =>
    if rest2 = [] then none
    else
      if (rest2.dropWhile jsWS).isEmpty = false then
        if (rest2.dropWhile jsWS).any jsDotExcl then none
        else some (kind, some (rest2.dropWhile jsWS))
      else
        match rest2.getLast? with
        | some c => if jsDotExcl c then none else some (kind, some [c])
        | none => none
  | none => if rest = [] then some (kind, none) else none

/-- Backtracking over the greedy kind capture: try the longest run of
kind characters first, then shorter prefixes. -/
def anchoredKindLoop (run tail : List Char) : Nat →
    Option (List Char × Option (List Char))
  | 0 => none
  | len + 1 =>
    match anchoredTry (run.take (len + 1)) (run.drop (len + 1) ++ tail) with
    | some r => some r
    | none => anchoredKindLoop run tail len

/-- Continuation of the `$`-anchored patterns after the literal:
`\s+` then the kind with backtracking, then the anchored tail. -/
def anchoredAfter (rest : List Char) :
    Option (List Char × Option (List Char)) :=
  if rest.takeWhile jsWS = [] then none
  else
    if (rest.dropWhile jsWS).takeWhile isKindChar = [] then none
    else
      anchoredKindLoop ((rest.dropWhile jsWS).takeWhile isKindChar)
        ((rest.dropWhile jsWS).dropWhile isKindChar)
        (((rest.dropWhile jsWS).takeWhile isKindChar).length)

/-- Leftmost match of a `$`-anchored pattern with the given literal. -/
def findAnchored (lit : List Char) : List Char →
    Option (List Char × Option (List Char))
  | [] => none
  | c :: cs =>
    if hasPrefixSeq (c :: cs) lit then
      match anchoredAfter ((c :: cs).drop lit.length) with
      | some r => some r
      | none => findAnchored lit cs
    else findAnchored lit cs

/-- The six violation kinds plus the wildcard. -/
def VALID_KINDS : List String :=
  ["deprecated-api", "removed-api", "future-api", "wrong-arity",
    "wrong-param", "unknown-export", "*"]

/-- Drop trailing whitespace. -/
def dropTrailWS (l : List Char) : List Char :=
  (l.reverse.dropWhile jsWS).reverse

/-- JS `trim`. -/
def jsTrim (l : List Char) : List Char :=
  ((l.dropWhile jsWS).reverse.dropWhile jsWS).reverse

/-- `cleanBlockReason` — strip one trailing `*/` (with surrounding
whitespace), trim, and map the empty result to `undefined`. -/
def cleanBlockReason : Option (List Char) → Option String
  | none => none
  | some raw =>
    let t := dropTrailWS raw
    let t2 :=
      if hasPrefixSeq t.reverse ['/', '*'] then
        dropTrailWS (t.take (t.length - 2))
      else raw
    let tr := jsTrim t2
    if tr = [] then none else some ⟨tr⟩

/-- What the loop body does with one line, mirroring the branch order
of `parseInlineSuppressions`: block end (substring test) first; then
block start with its two guards (an invalid kind still consumes the
line); then the current-line directive; then the next-line directive. -/
inductive LineAction where
  | blockEnd
  | blockStart (kind : String) (reason : Option String)
  | lineSup (kind : String) (reason : Option String)
  | nextSup (kind : String) (reason : Option String)
  | noAct
deriving DecidableEq, Repr

/-- The current-line / next-line branches (reached when the line is
neither a block end nor an accepted block start). -/
def lineActionRest (line : List Char) : LineAction :=
  match findAnchored currentLit line with
  | some (kind, reason) =>
    if (⟨kind⟩ : String) ∈ VALID_KINDS then
      .lineSup ⟨kind⟩ (reason.map fun r => (⟨jsTrim r⟩ : String))
    else .noAct
  | none =>
    match findAnchored nextLit line with
    | some (kind, reason) =>
      if (⟨kind⟩ : String) ∈ VALID_KINDS then
        .nextSup ⟨kind⟩ (reason.map fun r => (⟨jsTrim r⟩ : String))
      else .noAct
    | none => .noAct

/-- Classification of one line. -/
def lineAction (line : List Char) : LineAction :=
  if containsSeq blockEndLit line then .blockEnd
  else
    match findBlockStart line with
    | some (kind, reason, replaced) =>
      if (findAnchored currentLit line).isSome = false ∧
          (findAnchored nextLit replaced).isSome = false then
        if (⟨kind⟩ : String) ∈ VALID_KINDS then
          .blockStart ⟨kind⟩ (cleanBlockReason reason)
        else .noAct
      else lineActionRest line
    | none => lineActionRest line

/-- An open block suppression on the stack. -/
structure OpenBlock where
  kind : String
  reason : Option String
  startLine : Nat
deriving DecidableEq, Repr

/-- The parser loop: 1-based line numbers, a stack of open blocks
(head = most recent), and the emitted suppressions in order. -/
def suppLoop : List (List Char) → Nat → List OpenBlock →
    List InlineSuppression → List InlineSuppression
  | [], _, _, acc => acc
  | l :: rest, lineNum, opens, acc =>
    match lineAction l with
    | .blockEnd =>
      match opens with
      | [] => suppLoop rest (lineNum + 1) [] acc
      | ob :: obs =>
        suppLoop rest (lineNum + 1) obs
          (acc ++ [⟨ob.kind, ob.reason, ob.startLine, lineNum⟩])
    | .blockStart kind reason =>
      suppLoop rest (lineNum + 1) (⟨kind, reason, lineNum⟩ :: opens) acc
    | .lineSup kind reason =>
      suppLoop rest (lineNum + 1) opens
        (acc ++ [⟨kind, reason, lineNum, lineNum⟩])
    | .nextSup kind reason =>
      suppLoop rest (lineNum + 1) opens
        (acc ++ [⟨kind, reason, lineNum + 1, lineNum + 1⟩])
    | .noAct => suppLoop rest (lineNum + 1) opens acc

/-- `source.split("\n")` as character lists. -/
def splitLines (source : String) : List (List Char) :=
  splitChars '\n' source.data

/-- `parseInlineSuppressions` — extract the inline suppression
directives of a source text. -/
def parseInlineSuppressions (source : String) : List InlineSuppression :=
  suppLoop (splitLines source) 1 [] []

/-- Reference block matcher: the LIFO-matched `(start, end)` pairs.
A `doxy-ignore-end` with no open block emits nothing; a
`doxy-ignore-start` with no later matching end is dropped at the end
of input (the `[]` case discards the remaining stack). -/
def blockPairs : List (List Char) → Nat → List OpenBlock →
    List InlineSuppression
  | [], _, _ => []
  | l :: rest, lineNum, opens =>
    match lineAction l with
    | .blockEnd =>
      match opens with
      | [] => blockPairs rest (lineNum + 1) []
      | ob :: obs =>
        ⟨ob.kind, ob.reason, ob.startLine, lineNum⟩ ::
          blockPairs rest (lineNum + 1) obs
    | .blockStart kind reason =>
      blockPairs rest (lineNum + 1) (⟨kind, reason, lineNum⟩ :: opens)
    | .lineSup _ _ => blockPairs rest (lineNum + 1) opens
    | .nextSup _ _ => blockPairs rest (lineNum + 1) opens
    | .noAct => blockPairs rest (lineNum + 1) opens

/-! ## C1 — which deprecation entry is active

The spec says: the deprecation with the *greatest* `since ≤ v`.  The
loop in `findActiveDeprecation` returns the *first* entry (in
declaration order) whose `since` has been reached, skipping entries
whose `since` does not coerce. -/

/-- The loop's applicability test for one deprecation entry: `since`
coerces and `since ≤ v`. -/
def depApplies (M : SemverModule) (c : Semver) (dep : DeprecationEntry) : Bool :=
  match M.coerce dep.since with
  | none => false
  | some sinceSemver => !Semver.ltb c sinceSemver

/-- The loop's applicability test for one signature: `since` coerces
and `since ≤ v`, and the `until` guard does not fire (`until` absent,
or uncoercible, or `v < until`). -/
def sigApplies (M : SemverModule) (c : Semver) (sig : SignatureSpec) : Bool :=
  match M.coerce sig.since with
  | none => false
  | some sinceSemver => !Semver.ltb c sinceSemver && !untilBlocks M c sig

/-- The coerced `since` of a signature (defaulting to `0.0.0`; only
used on signatures whose `since` coerces). -/
def sigKey (M : SemverModule) (sig : SignatureSpec) : Semver :=
  (M.coerce sig.since).getD ⟨0, 0, 0⟩

/-- Loop invariant for `findActiveSigGo`: relative to the already
processed prefix, `none` means no applicable signature was seen, and
`some b` means `b` is applicable, every applicable signature before it
has a strictly smaller `since`, and no applicable signature after it
has a strictly greater `since`. -/
def SigGoInv (M : SemverModule) (c : Semver) (pre : List SignatureSpec) :
    Option SignatureSpec → Prop
  | none => ∀ t ∈ pre, sigApplies M c t = false
  | some b =>
    sigApplies M c b = true ∧
    ∃ l1 l2, pre = l1 ++ b :: l2 ∧
      (∀ t ∈ l1, sigApplies M c t = true →
        Semver.ltb (sigKey M t) (sigKey M b) = true) ∧
      (∀ t ∈ l2, sigApplies M c t = true →
        Semver.ltb (sigKey M b) (sigKey M t) = false)

/-- The deprecation loop is `List.find?`: it returns the first
applicable entry. -/
theorem findActiveDepGo_eq_find? (M : SemverModule) (c : Semver)
    (l : List DeprecationEntry) :
    findActiveDepGo M c l = l.find? (depApplies M c) := by
  induction l with
  | nil => rfl
  | cons dep rest ih =>
    simp only [findActiveDepGo]
    cases hc : M.coerce dep.since with
    | none => simp [List.find?, depApplies, hc, ih]
    | some s =>
      by_cases hlt : Semver.ltb c s = true
      · simp [List.find?, depApplies, hc, hlt, ih]
      · simp [List.find?, depApplies, hc, hlt]

/-- C1 (amended): for a version that coerces, `activeDeprecation` is
the *first* entry in the `deprecations` sequence whose `since` coerces
and is `≤ v` — the earliest applicable entry, not the most recent. -/
theorem findActiveDeprecation_first (M : SemverModule) (spec : ApiSpec)
    (v : String) (c : Semver) (h : M.coerce v = some c) :
    findActiveDeprecation M spec v =
      spec.deprecations.find? (depApplies M c) := by
  unfold findActiveDeprecation
  rw [h]
  exact findActiveDepGo_eq_find? M c spec.deprecations

/-- Witness for the amended C1 at a concrete spec and version. -/
theorem findActiveDeprecation_first_witness :
    findActiveDeprecation wSemver wSpec "2.0.0" =
      wSpec.deprecations.find? (depApplies wSemver ⟨2, 0, 0⟩) :=
  findActiveDeprecation_first wSemver wSpec "2.0.0" ⟨2, 0, 0⟩ (by decide)

/-- Counterexample to C1 as stated: at `v = 2.0.0` both entries of
`wSpec.deprecations` have `since ≤ v`, the entries are ordered
non-decreasing by `since`, and the most recent applicable entry is
`wDep2` — yet `getApiSpec` returns `wDep1`, the earlier one. -/
theorem findActiveDeprecation_not_most_recent :
    getApiSpec wSemver wStore "react" "createFactory" "2.0.0" =
      some { spec := wSpec
             activeSignature := some wSig1
             activeDeprecation := some wDep1
             available := true
             isFuture := false } ∧
    wSpec.deprecations = [wDep1, wDep2] ∧
    wSemver.coerce "2.0.0" = some ⟨2, 0, 0⟩ ∧
    wSemver.coerce wDep1.since = some ⟨1, 0, 0⟩ ∧
    wSemver.coerce wDep2.since = some ⟨2, 0, 0⟩ ∧
    depApplies wSemver ⟨2, 0, 0⟩ wDep2 = true ∧
    Semver.ltb ⟨1, 0, 0⟩ ⟨2, 0, 0⟩ = true ∧
    wDep1 ≠ wDep2 := by
  refine ⟨by decide, by decide, by decide, by decide, by decide,
    by decide, by decide, by decide⟩

/-! ## C3 — which signature is active

The main rule (greatest `since ≤ v`, subject to the `until` bound)
holds; the tie-break does not: when several applicable signatures share
the greatest `since`, the loop keeps the *first*, because it replaces
the best candidate only on a strictly greater `since`. -/

theorem sigApplies_coerce {M : SemverModule} {c : Semver}
    {sig : SignatureSpec} (h : sigApplies M c sig = true) :
    M.coerce sig.since = some (sigKey M sig) := by
  unfold sigApplies at h
  unfold sigKey
  cases hc : M.coerce sig.since with
  | none => rw [hc] at h; cases h
  | some s => simp [hc]

theorem Semver.ltb_trans {a b c : Semver} (h1 : Semver.ltb a b = true)
    (h2 : Semver.ltb b c = true) : Semver.ltb a c = true := by
  simp only [Semver.ltb, Bool.or_eq_true, Bool.and_eq_true,
    decide_eq_true_eq] at *
  omega

theorem Semver.ltb_false_lt_trans {a b c : Semver}
    (h1 : Semver.ltb a b = false) (h2 : Semver.ltb a c = true) :
    Semver.ltb b c = true := by
  simp only [Semver.ltb, Bool.or_eq_true, Bool.and_eq_true,
    decide_eq_true_eq, Bool.or_eq_false_iff, Bool.and_eq_false_iff,
    decide_eq_false_iff_not] at *
  omega

theorem sigGoInv_skip {M : SemverModule} {c : Semver}
    {pre : List SignatureSpec} {best : Option SignatureSpec}
    {sig : SignatureSpec} (hinv : SigGoInv M c pre best)
    (hsig : sigApplies M c sig = false) :
    SigGoInv M c (pre ++ [sig]) best := by
  cases best with
  | none =>
    intro t ht
    rcases List.mem_append.1 ht with ht | ht
    · exact hinv t ht
    · simp at ht; subst ht; exact hsig
  | some b =>
    obtain ⟨hb, l1, l2, hpre, h1, h2⟩ := hinv
    refine ⟨hb, l1, l2 ++ [sig], ?_, h1, ?_⟩
    · rw [hpre]; simp
    · intro t ht hta
      rcases List.mem_append.1 ht with ht | ht
      · exact h2 t ht hta
      · simp at ht; subst ht; rw [hsig] at hta; cases hta

theorem findActiveSigGo_inv (M : SemverModule) (c : Semver) :
    ∀ (rest pre : List SignatureSpec) (best : Option SignatureSpec),
      SigGoInv M c pre best →
      SigGoInv M c (pre ++ rest) (findActiveSigGo M c rest best) := by
  intro rest
  induction rest with
  | nil => intro pre best h; simpa using h
  | cons sig rest ih =>
    intro pre best hinv
    have hstep :
        ∀ best', SigGoInv M c (pre ++ [sig]) best' →
          SigGoInv M c (pre ++ sig :: rest) (findActiveSigGo M c rest best') := by
      intro best' h'
      have := ih (pre ++ [sig]) best' h'
      simpa using this
    simp only [findActiveSigGo]
    cases hc : M.coerce sig.since with
    | none =>
      refine hstep best (sigGoInv_skip hinv ?_)
      simp [sigApplies, hc]
    | some s =>
      by_cases hlt : Semver.ltb c s = true
      · simp only [hlt, if_true]
        refine hstep best (sigGoInv_skip hinv ?_)
        simp [sigApplies, hc, hlt]
      · simp only [hlt, if_false]
        by_cases huntil : untilBlocks M c sig = true
        · simp only [huntil, if_true]
          refine hstep best (sigGoInv_skip hinv ?_)
          simp [sigApplies, hc, huntil]
        · simp only [huntil, if_false]
          have happ : sigApplies M c sig = true := by
            have e1 : Semver.ltb c s = false := by simpa using hlt
            have e2 : untilBlocks M c sig = false := by simpa using huntil
            simp [sigApplies, hc, e1, e2]
          have hkey : sigKey M sig = s := by simp [sigKey, hc]
          cases best with
          | none =>
            simp only [bestReplaced, if_true]
            refine hstep (some sig) ⟨happ, pre, [], by simp, ?_, by simp⟩
            intro t ht hta
            exact absurd hta (by simp [hinv t ht])
          | some b =>
            obtain ⟨hb, l1, l2, hpre, h1, h2⟩ := hinv
            have hbr : bestReplaced M s (some b) =
                Semver.ltb (sigKey M b) s := by
              simp [bestReplaced, sigApplies_coerce hb]
            rw [hbr]
            by_cases hrep : Semver.ltb (sigKey M b) s = true
            · simp only [hrep, if_true]
              refine hstep (some sig) ⟨happ, pre, [], by simp, ?_, by simp⟩
              intro t ht hta
              rw [hkey]
              rw [hpre] at ht
              rcases List.mem_append.1 ht with ht | ht
              · exact Semver.ltb_trans (h1 t ht hta) hrep
              · rcases List.mem_cons.1 ht with ht | ht
                · subst ht; exact hrep
                · exact Semver.ltb_false_lt_trans (h2 t ht hta) hrep
            · rw [Bool.not_eq_true] at hrep
              simp only [hrep, if_false]
              refine hstep (some b) ⟨hb, l1, l2 ++ [sig], ?_, h1, ?_⟩
              · rw [hpre]; simp
              · intro t ht hta
                rcases List.mem_append.1 ht with ht | ht
                · exact h2 t ht hta
                · simp at ht; subst ht; rw [hkey]; exact hrep

/-- C3 (amended): for a version that coerces, `activeSignature` is an
applicable signature (greatest `since ≤ v`, subject to `until`) such
that no applicable signature has a strictly greater `since`; among the
applicable signatures sharing that greatest `since`, the *first* in
declaration order is chosen, not the last.  When no signature applies,
the result is `none`. -/
theorem findActiveSignature_spec (M : SemverModule) (spec : ApiSpec)
    (v : String) (c : Semver) (h : M.coerce v = some c) :
    (findActiveSignature M spec v = none ↔
      ∀ t ∈ spec.signatures, sigApplies M c t = false) ∧
    (∀ sig, findActiveSignature M spec v = some sig →
      sigApplies M c sig = true ∧
      ∃ l1 l2, spec.signatures = l1 ++ sig :: l2 ∧
        (∀ t ∈ l1, sigApplies M c t = true →
          Semver.ltb (sigKey M t) (sigKey M sig) = true) ∧
        (∀ t ∈ l2, sigApplies M c t = true →
          Semver.ltb (sigKey M sig) (sigKey M t) = false)) := by
  have hres : findActiveSignature M spec v =
      findActiveSigGo M c spec.signatures none := by
    unfold findActiveSignature; rw [h]
  have hinv := findActiveSigGo_inv M c spec.signatures [] none (by
    intro t ht; cases ht)
  rw [List.nil_append] at hinv
  rw [hres]
  constructor
  · constructor
    · intro hnone
      rw [hnone] at hinv
      exact hinv
    · intro hall
      cases hgo : findActiveSigGo M c spec.signatures none with
      | none => rfl
      | some b =>
        rw [hgo] at hinv
        obtain ⟨hb, l1, l2, hpre, -, -⟩ := hinv
        have : b ∈ spec.signatures := by rw [hpre]; simp
        rw [hall b this] at hb
        cases hb
  · intro sig hsig
    rw [hsig] at hinv
    exact hinv

/-- Witness for the amended C3 at a concrete spec and version. -/
theorem findActiveSignature_spec_witness :
    (findActiveSignature wSemver wSpec "1.0.0" = none ↔
      ∀ t ∈ wSpec.signatures, sigApplies wSemver ⟨1, 0, 0⟩ t = false) ∧
    (∀ sig, findActiveSignature wSemver wSpec "1.0.0" = some sig →
      sigApplies wSemver ⟨1, 0, 0⟩ sig = true ∧
      ∃ l1 l2, wSpec.signatures = l1 ++ sig :: l2 ∧
        (∀ t ∈ l1, sigApplies wSemver ⟨1, 0, 0⟩ t = true →
          Semver.ltb (sigKey wSemver t) (sigKey wSemver sig) = true) ∧
        (∀ t ∈ l2, sigApplies wSemver ⟨1, 0, 0⟩ t = true →
          Semver.ltb (sigKey wSemver sig) (sigKey wSemver t) = false)) :=
  findActiveSignature_spec wSemver wSpec "1.0.0" ⟨1, 0, 0⟩ (by decide)

/-- Counterexample to C3's tie-break as stated: at `v = 1.0.0` the two
signatures of `wSpec` are both applicable with the same (greatest)
`since`; the claim says the one *last* in declaration order (`wSig2`)
is chosen, but the loop returns `wSig1`, the first. -/
theorem findActiveSignature_tie_first :
    findActiveSignature wSemver wSpec "1.0.0" = some wSig1 ∧
    wSpec.signatures = [wSig1, wSig2] ∧
    wSemver.coerce "1.0.0" = some ⟨1, 0, 0⟩ ∧
    sigApplies wSemver ⟨1, 0, 0⟩ wSig1 = true ∧
    sigApplies wSemver ⟨1, 0, 0⟩ wSig2 = true ∧
    sigKey wSemver wSig1 = sigKey wSemver wSig2 ∧
    wSig1 ≠ wSig2 := by
  refine ⟨by decide, by decide, by decide, by decide, by decide,
    by decide, by decide⟩

/-! ## C5 — `available` and `isFuture` are mutually exclusive -/

/-- C5: for every spec in the store and every version string, the
`ResolvedApiSpec` returned by `getApiSpec` never has `available = true`
and `isFuture = true` at the same time. -/
theorem getApiSpec_available_isFuture_exclusive
    (M : SemverModule) (store : InMemoryAuthorityStore)
    (packageName exportName installedVersion : String)
    (r : ResolvedApiSpec)
    (h : getApiSpec M store packageName exportName installedVersion = some r) :
    ¬(r.available = true ∧ r.isFuture = true) := by
  cases hm : mapGet store.specs (packageName ++ "/" ++ exportName) with
  | none => simp only [getApiSpec, hm] at h; cases h
  | some spec =>
    simp only [getApiSpec, hm, Option.some.injEq] at h
    subst h
    rintro ⟨ha, hf⟩
    have ha' : isAvailable M spec installedVersion = true := ha
    have hf' : (!isAvailable M spec installedVersion &&
        isFutureApi M spec installedVersion) = true := hf
    rw [ha'] at hf'
    simp at hf'

/-- Witness for C5 at a concrete store and version. -/
theorem getApiSpec_available_isFuture_exclusive_witness :
    ¬((({ spec := wSpec
          activeSignature := some wSig1
          activeDeprecation := some wDep1
          available := true
          isFuture := false } : ResolvedApiSpec)).available = true ∧
      (({ spec := wSpec
          activeSignature := some wSig1
          activeDeprecation := some wDep1
          available := true
          isFuture := false } : ResolvedApiSpec)).isFuture = true) :=
  getApiSpec_available_isFuture_exclusive wSemver wStore
    "react" "createFactory" "2.0.0" _ (by decide)

/-! ## C4 — uncoercible versions yield the "unknown" resolved spec -/

/-- C4: when the requested version does not coerce, `getApiSpec` on a
known key still returns a `ResolvedApiSpec`, with `available = false`,
`isFuture = false`, no active signature and no active deprecation. -/
theorem getApiSpec_uncoercible
    (M : SemverModule) (store : InMemoryAuthorityStore)
    (packageName exportName installedVersion : String) (spec : ApiSpec)
    (hkey : mapGet store.specs (packageName ++ "/" ++ exportName) = some spec)
    (hco : M.coerce installedVersion = none) :
    getApiSpec M store packageName exportName installedVersion =
      some { spec := spec
             activeSignature := none
             activeDeprecation := none
             available := false
             isFuture := false } := by
  unfold getApiSpec
  simp only [hkey]
  unfold isAvailable isFutureApi findActiveSignature findActiveDeprecation
  simp [hco]

/-- Witness for C4: a concrete store and a version string outside the
coercion table. -/
theorem getApiSpec_uncoercible_witness :
    getApiSpec wSemver wStore "react" "createFactory" "not-a-version" =
      some { spec := wSpec
             activeSignature := none
             activeDeprecation := none
             available := false
             isFuture := false } :=
  getApiSpec_uncoercible wSemver wStore "react" "createFactory"
    "not-a-version" wSpec (by decide) (by decide)

/-! ## C9 — `getApiSpec` is pure -/

/-- C9: two successive `getApiSpec` calls with the same arguments
return equal results, and the query leaves the store unchanged. -/
theorem getApiSpec_pure (M : SemverModule) (store : InMemoryAuthorityStore)
    (packageName exportName installedVersion : String) :
    (getApiSpecS M
        (getApiSpecS M store packageName exportName installedVersion).2
        packageName exportName installedVersion).1 =
      (getApiSpecS M store packageName exportName installedVersion).1 ∧
    (getApiSpecS M
        (getApiSpecS M store packageName exportName installedVersion).2
        packageName exportName installedVersion).2 = store := by
  exact ⟨rfl, rfl⟩

/-! ## C2 — long ID round-trip -/

theorem digitChar_isDigit {n : Nat} (h : n < 10) :
    (Nat.digitChar n).isDigit = true := by
  interval_cases n <;> decide

theorem digitVal_digitChar {n : Nat} (h : n < 10) :
    digitVal (Nat.digitChar n) = n := by
  interval_cases n <;> decide

theorem decCharsAux_ne_nil (fuel n : Nat) (h : n < fuel) :
    decCharsAux fuel n ≠ [] := by
  cases fuel with
  | zero => omega
  | succ fuel =>
    simp only [decCharsAux]
    split
    · simp
    · simp

theorem decCharsAux_digits (fuel : Nat) : ∀ n, n < fuel →
    ∀ c ∈ decCharsAux fuel n, c.isDigit = true := by
  induction fuel with
  | zero => intro n h; omega
  | succ fuel ih =>
    intro n h c hc
    simp only [decCharsAux] at hc
    by_cases h10 : n < 10
    · rw [if_pos h10] at hc
      simp at hc
      subst hc
      exact digitChar_isDigit h10
    · rw [if_neg h10] at hc
      rcases List.mem_append.1 hc with hc | hc
      · have hdiv : n / 10 < fuel := by
          have := Nat.div_lt_self (by omega : 0 < n) (by omega : 1 < 10)
          omega
        exact ih (n / 10) hdiv c hc
      · simp at hc
        subst hc
        exact digitChar_isDigit (Nat.mod_lt n (by omega))

theorem decCharsAux_foldl (fuel : Nat) : ∀ n acc, n < fuel →
    (decCharsAux fuel n).foldl (fun a c => a * 10 + digitVal c) acc =
      acc * 10 ^ (decCharsAux fuel n).length + n := by
  induction fuel with
  | zero => intro n acc h; omega
  | succ fuel ih =>
    intro n acc h
    simp only [decCharsAux]
    by_cases h10 : n < 10
    · rw [if_pos h10]
      simp [List.foldl, digitVal_digitChar h10]
    · rw [if_neg h10]
      have hdiv : n / 10 < fuel := by
        have := Nat.div_lt_self (by omega : 0 < n) (by omega : 1 < 10)
        omega
      rw [List.foldl_append, ih (n / 10) acc hdiv, List.length_append]
      simp only [List.foldl, List.length_cons, List.length_nil,
        digitVal_digitChar (Nat.mod_lt n (by omega : 0 < 10))]
      have hm : n / 10 * 10 + n % 10 = n := by omega
      calc (acc * 10 ^ (decCharsAux fuel (n / 10)).length + n / 10) * 10 +
          n % 10
        = acc * (10 ^ (decCharsAux fuel (n / 10)).length * 10) +
            (n / 10 * 10 + n % 10) := by ring
      _ = acc * 10 ^ ((decCharsAux fuel (n / 10)).length + (0 + 1)) + n := by
          rw [hm, Nat.zero_add, pow_succ]

theorem decChars_ne_nil (n : Nat) : decChars n ≠ [] :=
  decCharsAux_ne_nil (n + 1) n (by omega)

theorem decChars_digits (n : Nat) : ∀ c ∈ decChars n, c.isDigit = true :=
  decCharsAux_digits (n + 1) n (by omega)

theorem digitsToNat_decChars (n : Nat) : digitsToNat (decChars n) = n := by
  unfold digitsToNat decChars
  rw [decCharsAux_foldl (n + 1) n 0 (by omega)]
  simp

theorem breakAtChar_append (l r : List Char) (ch : Char) (h : ch ∉ l) :
    breakAtChar (l ++ ch :: r) ch = some (l, r) := by
  induction l with
  | nil => simp [breakAtChar]
  | cons c cs ih =>
    have hc : ¬(c = ch) := fun e => h (by simp [e])
    have h' : ch ∉ cs := fun hm => h (by simp [hm])
    simp [breakAtChar, hc, ih h']

theorem takeWhile_dropWhile_append {p : Char → Bool} (xs : List Char)
    (y : Char) (ys : List Char)
    (hxs : ∀ x ∈ xs, p x = true) (hy : p y = false) :
    (xs ++ y :: ys).takeWhile p = xs ∧
      (xs ++ y :: ys).dropWhile p = y :: ys := by
  induction xs with
  | nil =>
    constructor
    · rw [List.nil_append, List.takeWhile_cons_of_neg (by simp [hy])]
    · rw [List.nil_append, List.dropWhile_cons_of_neg (by simp [hy])]
  | cons a as ih =>
    have ha : p a = true := hxs a (by simp)
    have h' : ∀ x ∈ as, p x = true := fun x hx => hxs x (by simp [hx])
    obtain ⟨t, d⟩ := ih h'
    constructor
    · rw [List.cons_append, List.takeWhile_cons_of_pos (by simp [ha]), t]
    · rw [List.cons_append, List.dropWhile_cons_of_pos (by simp [ha]), d]

theorem parseTailChars_spec (file : List Char) (line col : Nat)
    (hf : file ≠ []) (hex : ∀ c ∈ file, jsDotExcl c = false) :
    parseTailChars (file ++ ':' :: (decChars line ++ ':' :: decChars col)) =
      some (file, line, col) := by
  unfold parseTailChars
  have hrev : (file ++ ':' :: (decChars line ++ ':' :: decChars col)).reverse =
      (decChars col).reverse ++ ':' ::
        ((decChars line).reverse ++ ':' :: file.reverse) := by
    simp
  rw [hrev]
  unfold parseTailRev
  obtain ⟨t1, d1⟩ := takeWhile_dropWhile_append (p := (·.isDigit))
    ((decChars col).reverse) ':'
    ((decChars line).reverse ++ ':' :: file.reverse)
    (fun x hx => decChars_digits col x (List.mem_reverse.1 hx)) (by decide)
  rw [t1, d1]
  rw [if_neg (by simp [decChars_ne_nil col])]
  rw [show expectColon
      (':' :: ((decChars line).reverse ++ ':' :: file.reverse)) =
        some ((decChars line).reverse ++ ':' :: file.reverse) from rfl]
  rw [Option.some_bind]
  obtain ⟨t2, d2⟩ := takeWhile_dropWhile_append (p := (·.isDigit))
    ((decChars line).reverse) ':' file.reverse
    (fun x hx => decChars_digits line x (List.mem_reverse.1 hx)) (by decide)
  rw [t2, d2]
  rw [if_neg (by simp [decChars_ne_nil line])]
  rw [show expectColon (':' :: file.reverse) = some file.reverse from rfl]
  rw [Option.some_bind]
  rw [List.reverse_reverse]
  rw [if_neg hf]
  rw [if_neg (by
    simp only [Bool.not_eq_true, List.any_eq_false]
    intro c hc
    simp [hex c hc])]
  simp [digitsToNat_decChars]

theorem makeLongId_data (pkg exp file : String) (line col : Nat) :
    (makeLongId pkg exp file line col).data =
      'd' :: 'x' :: 'y' :: ':' ::
        (pkg.data ++ '/' :: (exp.data ++ ':' ::
          (file.data ++ ':' :: (decChars line ++ ':' :: decChars col)))) := by
  simp [makeLongId, natToDec, String.data_append]

/-- C2 (amended): `parseLongId ∘ makeLongId` is the identity whenever
the package contains no `/`, the export contains no `:`, the three
string components are nonempty, and the file contains no JS line
terminator.  (The counterexample shows the `/` restriction is
necessary: scoped packages do not round-trip.) -/
theorem longId_roundtrip (pkg exp file : String) (line col : Nat)
    (h1 : pkg.data ≠ []) (h2 : '/' ∉ pkg.data)
    (h3 : exp.data ≠ []) (h4 : ':' ∉ exp.data)
    (h5 : file.data ≠ []) (h6 : ∀ c ∈ file.data, jsDotExcl c = false) :
    parseLongId (makeLongId pkg exp file line col) =
      some { package := pkg
             exportName := exp
             file := file
             line := line
             column := col } := by
  unfold parseLongId
  rw [makeLongId_data]
  simp only [parseLongIdChars]
  rw [breakAtChar_append pkg.data _ '/' h2, Option.some_bind]
  simp only [if_neg h1]
  rw [breakAtChar_append exp.data _ ':' h4, Option.some_bind]
  simp only [if_neg h3]
  rw [parseTailChars_spec file.data line col h5 h6, Option.map_some']

/-- Witness for the amended C2 at concrete, restriction-satisfying
inputs. -/
theorem longId_roundtrip_witness :
    parseLongId (makeLongId "react" "createFactory" "src/App.tsx" 14 5) =
      some { package := "react"
             exportName := "createFactory"
             file := "src/App.tsx"
             line := 14
             column := 5 } :=
  longId_roundtrip "react" "createFactory" "src/App.tsx" 14 5
    (by decide) (by decide) (by decide) (by decide) (by decide) (by decide)

/-- Counterexample to C2 as stated: for the scoped package
`@tanstack/react-query`, `parseLongId` splits at the first `/`, so the
parsed tuple differs from the input (package `"@tanstack"`, export
`"react-query/useQuery"`). -/
theorem longId_scoped_counterexample :
    parseLongId
        (makeLongId "@tanstack/react-query" "useQuery" "src/hooks.ts" 10 0) =
      some { package := "@tanstack"
             exportName := "react-query/useQuery"
             file := "src/hooks.ts"
             line := 10
             column := 0 } ∧
    parseLongId
        (makeLongId "@tanstack/react-query" "useQuery" "src/hooks.ts" 10 0) ≠
      some { package := "@tanstack/react-query"
             exportName := "useQuery"
             file := "src/hooks.ts"
             line := 10
             column := 0 } := by
  exact ⟨by decide, by decide⟩

/-! ## C6 — inline suppression matching -/

/-- C6: `isLineSuppressed` returns the first suppression in the list
whose closed range `[startLine, endLine]` contains the line and whose
kind is `"*"` or the finding's kind, and `none` exactly when no
suppression satisfies both. -/
theorem isLineSuppressed_spec (line : Nat) (kind : String)
    (sups : List InlineSuppression) :
    (∀ sup, isLineSuppressed line kind sups = some sup →
      supMatches line kind sup = true ∧
      ∃ l1 l2, sups = l1 ++ sup :: l2 ∧
        ∀ t ∈ l1, supMatches line kind t = false) ∧
    (isLineSuppressed line kind sups = none ↔
      ∀ sup ∈ sups, supMatches line kind sup = false) := by
  induction sups with
  | nil =>
    constructor
    · intro sup h; cases h
    · simp [isLineSuppressed]
  | cons s rest ih =>
    obtain ⟨ih1, ih2⟩ := ih
    by_cases hrange : line < s.startLine ∨ s.endLine < line
    · have hm : supMatches line kind s = false := by
        simp only [supMatches, Bool.and_eq_false_iff]
        left
        rcases hrange with h | h
        · simp [Nat.not_le.2 h]
        · simp [Nat.not_le.2 h]
      have hrec : isLineSuppressed line kind (s :: rest) =
          isLineSuppressed line kind rest := by
        simp [isLineSuppressed, hrange]
      constructor
      · intro sup h
        rw [hrec] at h
        obtain ⟨hm', l1, l2, he, hall⟩ := ih1 sup h
        refine ⟨hm', s :: l1, l2, by rw [he, List.cons_append], ?_⟩
        intro t ht
        rcases List.mem_cons.1 ht with h' | h'
        · subst h'; exact hm
        · exact hall t h'
      · rw [hrec, ih2]
        constructor
        · intro hall sup hsup
          rcases List.mem_cons.1 hsup with h' | h'
          · subst h'; exact hm
          · exact hall sup h'
        · intro hall sup hsup
          exact hall sup (List.mem_cons_of_mem s hsup)
    · by_cases hkind : s.kind = "*" ∨ s.kind = kind
      · have hm : supMatches line kind s = true := by
          push_neg at hrange
          simp only [supMatches, Bool.and_eq_true, Bool.or_eq_true,
            decide_eq_true_eq]
          exact ⟨⟨Nat.le_of_not_lt (by omega), Nat.le_of_not_lt (by omega)⟩,
            hkind⟩
        have hrec : isLineSuppressed line kind (s :: rest) = some s := by
          simp [isLineSuppressed, hrange, hkind]
        constructor
        · intro sup h
          rw [hrec] at h
          cases h
          exact ⟨hm, [], rest, rfl, by intro t ht; cases ht⟩
        · rw [hrec]
          constructor
          · intro h; cases h
          · intro hall
            rw [hall s (List.mem_cons_self s rest)] at hm
            cases hm
      · have hm : supMatches line kind s = false := by
          simp only [supMatches, Bool.and_eq_false_iff]
          right
          push_neg at hkind
          simp [hkind.1, hkind.2]
        have hrec : isLineSuppressed line kind (s :: rest) =
            isLineSuppressed line kind rest := by
          simp [isLineSuppressed, hrange, hkind]
        constructor
        · intro sup h
          rw [hrec] at h
          obtain ⟨hm', l1, l2, he, hall⟩ := ih1 sup h
          refine ⟨hm', s :: l1, l2, by rw [he, List.cons_append], ?_⟩
          intro t ht
          rcases List.mem_cons.1 ht with h' | h'
          · subst h'; exact hm
          · exact hall t h'
        · rw [hrec, ih2]
          constructor
          · intro hall sup hsup
            rcases List.mem_cons.1 hsup with h' | h'
            · subst h'; exact hm
            · exact hall sup h'
          · intro hall sup hsup
            exact hall sup (List.mem_cons_of_mem s hsup)

/-- Witness for C6: with a non-matching-kind range first and a
wildcard range second, the wildcard is returned. -/
theorem isLineSuppressed_spec_witness :
    supMatches 2 "wrong-arity"
        ⟨"*", none, 2, 5⟩ = true ∧
    ∃ l1 l2,
      [(⟨"deprecated-api", none, 1, 3⟩ : InlineSuppression),
        ⟨"*", none, 2, 5⟩] =
        l1 ++ (⟨"*", none, 2, 5⟩ : InlineSuppression) :: l2 ∧
      ∀ t ∈ l1, supMatches 2 "wrong-arity" t = false :=
  (isLineSuppressed_spec 2 "wrong-arity"
      [⟨"deprecated-api", none, 1, 3⟩, ⟨"*", none, 2, 5⟩]).1
    ⟨"*", none, 2, 5⟩ (by decide)

/-! ## C7 — package-name extraction -/

theorem breakAtChar_eq_none {cs : List Char} {ch : Char}
    (h : ch ∉ cs) : breakAtChar cs ch = none := by
  induction cs with
  | nil => rfl
  | cons c rest ih =>
    have hc : ¬(c = ch) := fun e => h (by simp [e])
    have h' : ch ∉ rest := fun hm => h (by simp [hm])
    simp [breakAtChar, hc, ih h']

theorem splitChars_no_sep {cs : List Char} {ch : Char} (h : ch ∉ cs) :
    splitChars ch cs = [cs] := by
  induction cs with
  | nil => rfl
  | cons c rest ih =>
    have hc : ¬(c = ch) := fun e => h (by simp [e])
    have h' : ch ∉ rest := fun hm => h (by simp [hm])
    simp [splitChars, hc, ih h']

theorem splitChars_of_break {cs : List Char} {ch : Char}
    {hd r : List Char} (hb : breakAtChar cs ch = some (hd, r)) :
    splitChars ch cs = hd :: splitChars ch r := by
  induction cs generalizing hd with
  | nil => cases hb
  | cons c rest ih =>
    by_cases hc : c = ch
    · rw [hc]
      rw [show breakAtChar (c :: rest) ch = some ([], rest) by
        simp [breakAtChar, hc]] at hb
      cases hb
      simp [splitChars]
    · rw [show breakAtChar (c :: rest) ch =
          (breakAtChar rest ch).map (fun p => (c :: p.1, p.2)) by
        simp [breakAtChar, hc]] at hb
      cases hrest : breakAtChar rest ch with
      | none => rw [hrest] at hb; cases hb
      | some p =>
        rw [hrest, Option.map_some'] at hb
        cases hb
        rw [show splitChars ch (c :: rest) =
            (match splitChars ch rest with
             | [] => [[c]]
             | seg :: segs => (c :: seg) :: segs) by
          simp [splitChars, hc]]
        rw [ih hrest]

theorem breakAtChar_none_not_mem {cs : List Char} {ch : Char}
    (h : breakAtChar cs ch = none) : ch ∉ cs := by
  induction cs with
  | nil => simp
  | cons c rest ih =>
    by_cases hc : c = ch
    · rw [show breakAtChar (c :: rest) ch = some ([], rest) by
        simp [breakAtChar, hc]] at h
      cases h
    · rw [show breakAtChar (c :: rest) ch =
          (breakAtChar rest ch).map (fun p => (c :: p.1, p.2)) by
        simp [breakAtChar, hc]] at h
      cases hrest : breakAtChar rest ch with
      | none =>
        intro hm
        rcases List.mem_cons.1 hm with e | hm'
        · exact hc e.symm
        · exact ih hrest hm'
      | some p => rw [hrest, Option.map_some'] at h; cases h

/-- C7: `extractPackageName` returns `none` for relative sources
(leading `.` or `/`); for scoped sources (leading `@`) with at least
two slash-delimited segments, the first two segments joined by `/`;
otherwise the first slash-delimited segment (the whole string when
there is no slash). -/
theorem extractPackageName_spec (s : String) :
    ((headIs s '.' = true ∨ headIs s '/' = true) →
      extractPackageName s = none) ∧
    (headIs s '.' = false → headIs s '/' = false → headIs s '@' = true →
      ∀ p0 p1 rest, jsSplit s '/' = p0 :: p1 :: rest →
        extractPackageName s = some (p0 ++ "/" ++ p1)) ∧
    (headIs s '.' = false → headIs s '/' = false → headIs s '@' = false →
      extractPackageName s = some ((jsSplit s '/').headD s)) := by
  refine ⟨?_, ?_, ?_⟩
  · intro h
    rcases h with h | h <;> simp [extractPackageName, h]
  · intro h1 h2 hat p0 p1 rest hsplit
    simp [extractPackageName, h1, h2, hat, hsplit]
  · intro h1 h2 hat
    simp only [extractPackageName, h1, h2, Bool.or_self, Bool.false_eq_true,
      if_false, hat]
    cases hbr : breakAtChar s.data '/' with
    | none =>
      have hmem : '/' ∉ s.data := breakAtChar_none_not_mem hbr
      rw [jsSplit, splitChars_no_sep hmem]
      rfl
    | some p =>
      obtain ⟨hd, r⟩ := p
      rw [jsSplit, splitChars_of_break hbr]
      rfl

/-- Witness for C7 covering the three branches at concrete sources. -/
theorem extractPackageName_spec_witness :
    extractPackageName "./utils" = none ∧
    extractPackageName "@tanstack/react-query/build" =
      some ("@tanstack" ++ "/" ++ "react-query") ∧
    extractPackageName "react-dom/client" =
      some ((jsSplit "react-dom/client" '/').headD "react-dom/client") :=
  ⟨(extractPackageName_spec "./utils").1 (Or.inl (by decide)),
   (extractPackageName_spec "@tanstack/react-query/build").2.1 (by decide)
     (by decide) (by decide) "@tanstack" "react-query" ["build"] (by decide),
   (extractPackageName_spec "react-dom/client").2.2 (by decide) (by decide)
     (by decide)⟩

/-! ## C8 — import-only usages

Infrastructure: behaviour of the JS-`Map` model under `get`/`set`,
well-keyedness and key-uniqueness of the usage map, and the effect of
the step-3 fold. -/

theorem mapGet_map_replace {α : Type} (m : List (String × α)) (k : String)
    (v : α) :
    mapGet (m.map fun p => if p.1 = k then (k, v) else p) k =
      if (mapGet m k).isSome then some v else none := by
  induction m with
  | nil => simp [mapGet]
  | cons p rest ih =>
    by_cases hp : p.1 = k
    · simp [mapGet, List.find?_cons, hp]
    · simp only [List.map_cons, if_neg hp]
      rw [show mapGet (p :: rest.map fun p => if p.1 = k then (k, v) else p) k =
          mapGet (rest.map fun p => if p.1 = k then (k, v) else p) k by
        simp [mapGet, List.find?_cons, hp]]
      rw [show mapGet (p :: rest) k = mapGet rest k by
        simp [mapGet, List.find?_cons, hp]]
      exact ih

theorem mapGet_map_replace_ne {α : Type} (m : List (String × α))
    (k k' : String) (v : α) (h : k' ≠ k) :
    mapGet (m.map fun p => if p.1 = k then (k, v) else p) k' = mapGet m k' := by
  induction m with
  | nil => simp [mapGet]
  | cons p rest ih =>
    by_cases hp : p.1 = k
    · have hk : ¬(k = k') := fun e => h e.symm
      simp only [List.map_cons, if_pos hp]
      rw [show mapGet ((k, v) :: rest.map fun p => if p.1 = k then (k, v) else p) k' =
          mapGet (rest.map fun p => if p.1 = k then (k, v) else p) k' by
        simp [mapGet, List.find?_cons, hk]]
      rw [show mapGet (p :: rest) k' = mapGet rest k' by
        simp [mapGet, List.find?_cons, hp ▸ hk]]
      exact ih
    · simp only [List.map_cons, if_neg hp]
      by_cases hp' : p.1 = k'
      · simp [mapGet, List.find?_cons, hp']
      · rw [show mapGet (p :: rest.map fun p => if p.1 = k then (k, v) else p) k' =
            mapGet (rest.map fun p => if p.1 = k then (k, v) else p) k' by
          simp [mapGet, List.find?_cons, hp']]
        rw [show mapGet (p :: rest) k' = mapGet rest k' by
          simp [mapGet, List.find?_cons, hp']]
        exact ih

theorem mapGet_append {α : Type} (m1 m2 : List (String × α)) (k : String) :
    mapGet (m1 ++ m2) k =
      match mapGet m1 k with
      | some v => some v
      | none => mapGet m2 k := by
  induction m1 with
  | nil => simp [mapGet]
  | cons p rest ih =>
    by_cases hp : p.1 = k
    · simp [mapGet, List.find?_cons, hp]
    · rw [show mapGet ((p :: rest) ++ m2) k = mapGet (rest ++ m2) k by
        simp [mapGet, List.find?_cons, hp]]
      rw [show mapGet (p :: rest) k = mapGet rest k by
        simp [mapGet, List.find?_cons, hp]]
      exact ih

theorem isSome_mapGet {α : Type} (m : List (String × α)) (k : String) :
    (mapGet m k).isSome = (m.find? fun p => decide (p.1 = k)).isSome := by
  unfold mapGet
  cases m.find? fun p => decide (p.1 = k) <;> rfl

theorem mapGet_mapSet_self {α : Type} (m : List (String × α)) (k : String)
    (v : α) : mapGet (mapSet m k v) k = some v := by
  unfold mapSet
  by_cases hs : (m.find? fun p => decide (p.1 = k)).isSome
  · rw [if_pos hs, mapGet_map_replace]
    rw [if_pos (by rw [isSome_mapGet]; exact hs)]
  · rw [if_neg hs, mapGet_append]
    have : mapGet m k = none := by
      unfold mapGet
      rw [Option.not_isSome_iff_eq_none.1 hs]
      rfl
    rw [this]
    simp [mapGet, List.find?_cons]

theorem mapGet_mapSet_ne {α : Type} (m : List (String × α)) (k k' : String)
    (v : α) (h : k' ≠ k) : mapGet (mapSet m k v) k' = mapGet m k' := by
  unfold mapSet
  by_cases hs : (m.find? fun p => decide (p.1 = k)).isSome
  · rw [if_pos hs, mapGet_map_replace_ne _ _ _ _ h]
  · rw [if_neg hs, mapGet_append]
    have h2 : mapGet [(k, v)] k' = none := by
      have hk : ¬(k = k') := fun e => h e.symm
      simp [mapGet, List.find?_cons, hk]
    cases hm : mapGet m k' <;> simp [h2]

theorem keys_map_replace {α : Type} (m : List (String × α)) (k : String)
    (v : α) :
    (m.map fun p => if p.1 = k then (k, v) else p).map (·.1) =
      m.map (·.1) := by
  induction m with
  | nil => rfl
  | cons p rest ih =>
    by_cases hp : p.1 = k
    · simp only [List.map_cons, if_pos hp, ih]
      rw [hp]
    · simp only [List.map_cons, if_neg hp, ih]

theorem keys_mapSet_isSome {α : Type} {m : List (String × α)} {k : String}
    (v : α) (hs : (mapGet m k).isSome = true) :
    (mapSet m k v).map (·.1) = m.map (·.1) := by
  unfold mapSet
  rw [if_pos (by rw [← isSome_mapGet]; exact hs)]
  exact keys_map_replace m k v

theorem keys_mapSet_none {α : Type} {m : List (String × α)} {k : String}
    (v : α) (hs : mapGet m k = none) :
    (mapSet m k v).map (·.1) = m.map (·.1) ++ [k] := by
  unfold mapSet
  rw [if_neg (by
    rw [← isSome_mapGet, hs]
    simp)]
  simp

theorem mem_mapSet {α : Type} {m : List (String × α)} {k : String} {v : α}
    {e : String × α} (he : e ∈ mapSet m k v) : e ∈ m ∨ e = (k, v) := by
  unfold mapSet at he
  by_cases hs : (m.find? fun p => decide (p.1 = k)).isSome
  · rw [if_pos hs] at he
    obtain ⟨p, hp, hpe⟩ := List.mem_map.1 he
    by_cases hp1 : p.1 = k
    · right; rw [← hpe]; simp [hp1]
    · left; rw [← hpe]; simp [hp1]; exact hp
  · rw [if_neg hs] at he
    rcases List.mem_append.1 he with h | h
    · exact Or.inl h
    · simp at h; exact Or.inr h

theorem mapGet_eq_none_iff {α : Type} (m : List (String × α)) (k : String) :
    mapGet m k = none ↔ k ∉ m.map (·.1) := by
  induction m with
  | nil => simp [mapGet]
  | cons p rest ih =>
    by_cases hp : p.1 = k
    · simp [mapGet, List.find?_cons, hp]
    · rw [show mapGet (p :: rest) k = mapGet rest k by
        simp [mapGet, List.find?_cons, hp]]
      simp only [List.map_cons, List.mem_cons]
      rw [ih]
      constructor
      · intro h hm
        rcases hm with hm | hm
        · exact hp hm.symm
        · exact h hm
      · intro h hm
        exact h (Or.inr hm)

theorem mapGet_mem {α : Type} {m : List (String × α)} {k : String} {v : α}
    (h : mapGet m k = some v) : (k, v) ∈ m := by
  unfold mapGet at h
  cases hf : m.find? fun p => decide (p.1 = k) with
  | none => rw [hf] at h; cases h
  | some p =>
    rw [hf] at h
    have h1 := List.find?_some hf
    have h2 := List.mem_of_find?_eq_some hf
    simp at h1 h
    rw [← h1, ← h]
    exact h2

/-- The usage map is well-keyed: every entry's key is
`package ++ "/" ++ export` of its value. -/
def WellKeyed (m : List (String × SymbolUsage)) : Prop :=
  ∀ e ∈ m, e.1 = e.2.package ++ "/" ++ e.2.exportName

/-- The usage map has pairwise-distinct keys. -/
def KeysNodup (m : List (String × SymbolUsage)) : Prop :=
  (m.map (·.1)).Nodup

theorem nodup_append_singleton (l : List String) (x : String)
    (hx : x ∉ l) (hl : l.Nodup) : (l ++ [x]).Nodup := by
  induction l with
  | nil => simp
  | cons a as ih =>
    simp only [List.nodup_cons] at hl
    simp only [List.cons_append, List.nodup_cons]
    constructor
    · intro hmem
      rcases List.mem_append.1 hmem with h | h
      · exact hl.1 h
      · simp at h
        subst h
        exact hx (by simp)
    · exact ih (fun h => hx (by simp [h])) hl.2

theorem invariants_mapSet {m : List (String × SymbolUsage)} {k : String}
    {v : SymbolUsage} (hw : WellKeyed m) (hn : KeysNodup m)
    (hk : k = v.package ++ "/" ++ v.exportName) :
    WellKeyed (mapSet m k v) ∧ KeysNodup (mapSet m k v) := by
  constructor
  · intro e he
    rcases mem_mapSet he with h | h
    · exact hw e h
    · rw [h]; exact hk
  · unfold KeysNodup
    by_cases hs : (mapGet m k).isSome
    · rw [keys_mapSet_isSome v hs]; exact hn
    · have hnone : mapGet m k = none := Option.not_isSome_iff_eq_none.1 hs
      rw [keys_mapSet_none v hnone]
      have hk' : k ∉ m.map (·.1) := (mapGet_eq_none_iff m k).1 hnone
      exact nodup_append_singleton _ k hk' hn

theorem foldl_invariant {α β : Type} (P : α → Prop) (step : α → β → α)
    (h : ∀ a b, P a → P (step a b)) :
    ∀ (l : List β) (a : α), P a → P (l.foldl step a) := by
  intro l
  induction l with
  | nil => intro a ha; exact ha
  | cons x xs ih => intro a ha; exact ih _ (h a x ha)

theorem addCall_invariants (bindings : List (String × Binding))
    (nsd : List (String × String)) (m : List (String × SymbolUsage))
    (call : NormalizedCallExpression)
    (h : WellKeyed m ∧ KeysNodup m) :
    WellKeyed (addCall bindings nsd m call) ∧
      KeysNodup (addCall bindings nsd m call) := by
  obtain ⟨hw, hn⟩ := h
  cases hc : resolveCallee call.callee bindings nsd with
  | none =>
    rw [show addCall bindings nsd m call = m by simp [addCall, hc]]
    exact ⟨hw, hn⟩
  | some r =>
    obtain ⟨pkg, exp, kind⟩ := r
    cases hg : mapGet m (pkg ++ "/" ++ exp) with
    | none =>
      rw [show addCall bindings nsd m call =
          mapSet m (pkg ++ "/" ++ exp) ⟨pkg, exp, kind, [mkSite call]⟩ by
        simp [addCall, hc, hg]]
      exact invariants_mapSet hw hn rfl
    | some u =>
      have hu : pkg ++ "/" ++ exp = u.package ++ "/" ++ u.exportName :=
        hw _ (mapGet_mem hg)
      rw [show addCall bindings nsd m call =
          mapSet m (pkg ++ "/" ++ exp)
            ⟨u.package, u.exportName, u.importKind,
              u.usageSites ++ [mkSite call]⟩ by
        simp [addCall, hc, hg]]
      exact invariants_mapSet hw hn hu

theorem addImportOnly_invariants (m : List (String × SymbolUsage))
    (entry : String × Binding) (h : WellKeyed m ∧ KeysNodup m) :
    WellKeyed (addImportOnly m entry) ∧ KeysNodup (addImportOnly m entry) := by
  obtain ⟨hw, hn⟩ := h
  unfold addImportOnly
  by_cases hdef : entry.2.exportName = "default" ∨ entry.2.exportName = "*"
  · rw [if_pos hdef]; exact ⟨hw, hn⟩
  · rw [if_neg hdef]
    by_cases hs : (mapGet m (entry.2.package ++ "/" ++ entry.2.exportName)).isSome
    · rw [if_pos hs]; exact ⟨hw, hn⟩
    · rw [if_neg hs]
      exact invariants_mapSet hw hn rfl

theorem callUsageMap_invariants (ast : NormalizedAST) (st : ResolveState) :
    WellKeyed (callUsageMap ast st) ∧ KeysNodup (callUsageMap ast st) := by
  unfold callUsageMap
  exact foldl_invariant (fun m => WellKeyed m ∧ KeysNodup m) _
    (fun m call h =>
      addCall_invariants st.bindings st.namespacesAndDefaults m call h)
    ast.callExpressions []
    ⟨(fun e he => absurd he (List.not_mem_nil e)), (by simp [KeysNodup])⟩

theorem step3_preserves_some (key : String) (u : SymbolUsage) :
    ∀ (bs : List (String × Binding)) (m : List (String × SymbolUsage)),
      mapGet m key = some u →
      mapGet (bs.foldl addImportOnly m) key = some u := by
  intro bs
  induction bs with
  | nil => intro m h; exact h
  | cons e rest ih =>
    intro m h
    apply ih
    unfold addImportOnly
    by_cases hdef : e.2.exportName = "default" ∨ e.2.exportName = "*"
    · rw [if_pos hdef]; exact h
    · rw [if_neg hdef]
      by_cases hs : (mapGet m (e.2.package ++ "/" ++ e.2.exportName)).isSome
      · rw [if_pos hs]; exact h
      · rw [if_neg hs]
        by_cases hk : e.2.package ++ "/" ++ e.2.exportName = key
        · rw [hk] at hs
          rw [h] at hs
          cases hs rfl
        · rw [mapGet_mapSet_ne _ _ _ _ (fun e' => hk e'.symm)]
          exact h

theorem step3_inserts_first (key : String) :
    ∀ (bs : List (String × Binding)) (m : List (String × SymbolUsage))
      (e0 : String × Binding),
      mapGet m key = none →
      bs.find? (bindingQualifies key) = some e0 →
      mapGet (bs.foldl addImportOnly m) key =
        some ⟨e0.2.package, e0.2.exportName, e0.2.importKind,
          [{ location := e0.2.importLocation }]⟩ := by
  intro bs
  induction bs with
  | nil => intro m e0 _ hf; cases hf
  | cons e rest ih =>
    intro m e0 hnone hf
    by_cases hq : bindingQualifies key e = true
    · rw [List.find?_cons_of_pos _ hq] at hf
      cases hf
      simp only [bindingQualifies, Bool.and_eq_true, decide_eq_true_eq] at hq
      obtain ⟨⟨hd, hn⟩, hk⟩ := hq
      have hstep : addImportOnly m e =
          mapSet m (e.2.package ++ "/" ++ e.2.exportName)
            ⟨e.2.package, e.2.exportName, e.2.importKind,
              [{ location := e.2.importLocation }]⟩ := by
        unfold addImportOnly
        rw [if_neg (by rintro (h | h); exact hd h; exact hn h)]
        rw [if_neg (by rw [hk, hnone]; simp)]
      rw [List.foldl_cons, hstep]
      exact step3_preserves_some key _ rest _
        (by rw [hk]; exact mapGet_mapSet_self _ _ _)
    · rw [List.find?_cons_of_neg _ hq] at hf
      rw [List.foldl_cons]
      apply ih _ e0 _ hf
      unfold addImportOnly
      by_cases hdef : e.2.exportName = "default" ∨ e.2.exportName = "*"
      · rw [if_pos hdef]; exact hnone
      · rw [if_neg hdef]
        by_cases hs : (mapGet m (e.2.package ++ "/" ++ e.2.exportName)).isSome
        · rw [if_pos hs]; exact hnone
        · rw [if_neg hs]
          have hk : ¬(e.2.package ++ "/" ++ e.2.exportName = key) := by
            intro hk
            apply hq
            simp only [bindingQualifies, Bool.and_eq_true, decide_eq_true_eq]
            push_neg at hdef
            exact ⟨⟨hdef.1, hdef.2⟩, hk⟩
          rw [mapGet_mapSet_ne _ _ _ _ (fun e' => hk e'.symm)]
          exact hnone

theorem filter_values_of_mapGet (key : String) :
    ∀ (m : List (String × SymbolUsage)), WellKeyed m → KeysNodup m →
      (m.map (·.2)).filter
          (fun u => decide (u.package ++ "/" ++ u.exportName = key)) =
        (match mapGet m key with
         | some u => [u]
         | none => []) := by
  intro m
  induction m with
  | nil => intro _ _; simp [mapGet]
  | cons p rest ih =>
    intro hw hn
    have hp : p.1 = p.2.package ++ "/" ++ p.2.exportName := hw p (by simp)
    have hw' : WellKeyed rest := fun e he => hw e (List.mem_cons_of_mem p he)
    have hn' : KeysNodup rest := by
      unfold KeysNodup at hn ⊢
      simp only [List.map_cons, List.nodup_cons] at hn
      exact hn.2
    by_cases hk : p.1 = key
    · have hpred : decide (p.2.package ++ "/" ++ p.2.exportName = key) = true := by
        simp [← hp, hk]
      rw [show mapGet (p :: rest) key = some p.2 by
        simp [mapGet, List.find?_cons, hk]]
      simp only [List.map_cons, List.filter_cons, hpred, if_true]
      have hrest : mapGet rest key = none := by
        rw [mapGet_eq_none_iff]
        unfold KeysNodup at hn
        simp only [List.map_cons, List.nodup_cons] at hn
        rw [← hk]
        exact hn.1
      rw [ih hw' hn', hrest]
    · have hpred : decide (p.2.package ++ "/" ++ p.2.exportName = key) = false := by
        simp [← hp, hk]
      rw [show mapGet (p :: rest) key = mapGet rest key by
        simp [mapGet, List.find?_cons, hk]]
      simp only [List.map_cons, List.filter_cons, hpred, Bool.false_eq_true,
        if_false]
      rw [ih hw' hn']

/-- C8: after call-site processing, a named (non-default,
non-namespace) binding whose `(package, export)` key has no call site
yields exactly one usage in the output — keyed by the pair, with a
single `usageSite` at the import location of the first such binding;
when the key already has call sites, the output for that key is the
call-derived usage, unchanged. -/
theorem resolveImports_import_only (ast : NormalizedAST)
    (tracked : Option (List String)) (localName : String) (b : Binding)
    (hmem : (localName, b) ∈ (buildState ast tracked).bindings)
    (hd : b.exportName ≠ "default") (hn : b.exportName ≠ "*") :
    (mapGet (callUsageMap ast (buildState ast tracked))
        (b.package ++ "/" ++ b.exportName) = none →
      ∃ e0, (buildState ast tracked).bindings.find?
            (bindingQualifies (b.package ++ "/" ++ b.exportName)) = some e0 ∧
        (resolveImports ast tracked).usages.filter
            (fun u => decide (u.package ++ "/" ++ u.exportName =
              b.package ++ "/" ++ b.exportName)) =
          [⟨e0.2.package, e0.2.exportName, e0.2.importKind,
            [{ location := e0.2.importLocation }]⟩]) ∧
    (∀ u0, mapGet (callUsageMap ast (buildState ast tracked))
        (b.package ++ "/" ++ b.exportName) = some u0 →
      (resolveImports ast tracked).usages.filter
          (fun u => decide (u.package ++ "/" ++ u.exportName =
            b.package ++ "/" ++ b.exportName)) = [u0]) := by
  have hinv := callUsageMap_invariants ast (buildState ast tracked)
  have hfinal : WellKeyed ((buildState ast tracked).bindings.foldl addImportOnly
        (callUsageMap ast (buildState ast tracked))) ∧
      KeysNodup ((buildState ast tracked).bindings.foldl addImportOnly
        (callUsageMap ast (buildState ast tracked))) :=
    foldl_invariant (fun m => WellKeyed m ∧ KeysNodup m) addImportOnly
      (fun m e h => addImportOnly_invariants m e h)
      (buildState ast tracked).bindings _ hinv
  have husages : (resolveImports ast tracked).usages =
      ((buildState ast tracked).bindings.foldl addImportOnly
        (callUsageMap ast (buildState ast tracked))).map (·.2) := rfl
  constructor
  · intro hnone
    have hex : ((buildState ast tracked).bindings.find?
        (bindingQualifies (b.package ++ "/" ++ b.exportName))).isSome := by
      rw [List.find?_isSome]
      exact ⟨(localName, b), hmem, by
        simp [bindingQualifies, hd, hn]⟩
    obtain ⟨e0, hf⟩ := Option.isSome_iff_exists.1 hex
    refine ⟨e0, hf, ?_⟩
    have hfold := step3_inserts_first (b.package ++ "/" ++ b.exportName)
      (buildState ast tracked).bindings _ e0 hnone hf
    rw [husages,
      filter_values_of_mapGet (b.package ++ "/" ++ b.exportName) _
        hfinal.1 hfinal.2,
      hfold]
  · intro u0 hsome
    have hfold := step3_preserves_some (b.package ++ "/" ++ b.exportName) u0
      (buildState ast tracked).bindings _ hsome
    rw [husages,
      filter_values_of_mapGet (b.package ++ "/" ++ b.exportName) _
        hfinal.1 hfinal.2,
      hfold]

/-- Witness for C8: in a file importing `useState` and `useEffect`
from `react` and calling only `useState`, the uncalled `useEffect`
yields exactly one usage whose sole site is the import location. -/
theorem resolveImports_import_only_witness :
    ∃ e0, (buildState wAst none).bindings.find?
        (bindingQualifies ("react" ++ "/" ++ "useEffect")) = some e0 ∧
      (resolveImports wAst none).usages.filter
          (fun u => decide (u.package ++ "/" ++ u.exportName =
            "react" ++ "/" ++ "useEffect")) =
        [⟨e0.2.package, e0.2.exportName, e0.2.importKind,
          [{ location := e0.2.importLocation }]⟩] :=
  (resolveImports_import_only wAst none "useEffect" wBindingUseEffect
    (by decide) (by decide) (by decide)).1 (by decide)

/-! ## C10 — block suppressions need a matching end -/

theorem suppLoop_filter (ls : List (List Char)) :
    ∀ (lineNum : Nat) (opens : List OpenBlock) (acc : List InlineSuppression),
      (∀ ob ∈ opens, ob.startLine < lineNum) →
      (suppLoop ls lineNum opens acc).filter
          (fun s => decide (s.startLine < s.endLine)) =
        acc.filter (fun s => decide (s.startLine < s.endLine)) ++
          blockPairs ls lineNum opens := by
  induction ls with
  | nil =>
    intro n opens acc h
    simp [suppLoop, blockPairs]
  | cons l rest ih =>
    intro n opens acc h
    cases ha : lineAction l with
    | blockEnd =>
      cases opens with
      | nil =>
        simp only [suppLoop, ha, blockPairs]
        exact ih (n + 1) [] acc (by intro ob hob; cases hob)
      | cons ob obs =>
        simp only [suppLoop, ha, blockPairs]
        rw [ih (n + 1) obs (acc ++ [(⟨ob.kind, ob.reason, ob.startLine, n⟩ : InlineSuppression)])
          (by
            intro ob' hob'
            have := h ob' (List.mem_cons_of_mem ob hob')
            omega)]
        rw [List.filter_append]
        have hob : ob.startLine < n := h ob (by simp)
        simp only [List.filter_cons, List.filter_nil, decide_eq_true_eq]
        rw [if_pos hob]
        simp
    | blockStart kind reason =>
      simp only [suppLoop, ha, blockPairs]
      exact ih (n + 1) (⟨kind, reason, n⟩ :: opens) acc (by
        intro ob hob
        rcases List.mem_cons.1 hob with h' | h'
        · subst h'; simp
        · have := h ob h'; omega)
    | lineSup kind reason =>
      simp only [suppLoop, ha, blockPairs]
      rw [ih (n + 1) opens (acc ++ [(⟨kind, reason, n, n⟩ : InlineSuppression)])
        (by intro ob hob; have := h ob hob; omega)]
      rw [List.filter_append]
      simp only [List.filter_cons, List.filter_nil, decide_eq_true_eq]
      rw [if_neg (by omega)]
      simp
    | nextSup kind reason =>
      simp only [suppLoop, ha, blockPairs]
      rw [ih (n + 1) opens (acc ++ [(⟨kind, reason, n + 1, n + 1⟩ : InlineSuppression)])
        (by intro ob hob; have := h ob hob; omega)]
      rw [List.filter_append]
      simp only [List.filter_cons, List.filter_nil, decide_eq_true_eq]
      rw [if_neg (by omega)]
      simp
    | noAct =>
      simp only [suppLoop, ha, blockPairs]
      exact ih (n + 1) opens acc (by intro ob hob; have := h ob hob; omega)

/-- C10: the block suppressions emitted by `parseInlineSuppressions`
(those spanning more than one line — the line and next-line directives
always have `startLine = endLine`) are exactly the LIFO-matched
`(doxy-ignore-start, doxy-ignore-end)` pairs of `blockPairs`: a
`doxy-ignore-start` with no later matching `doxy-ignore-end` is
dropped at end of input and produces no suppression, and a
`doxy-ignore-end` with no open block emits nothing. -/
theorem parseInlineSuppressions_blocks (source : String) :
    (parseInlineSuppressions source).filter
        (fun s => decide (s.startLine < s.endLine)) =
      blockPairs (splitLines source) 1 [] := by
  unfold parseInlineSuppressions
  rw [suppLoop_filter (splitLines source) 1 [] []
    (by intro ob hob; cases hob)]
  rfl

end Doxy
